import Mathlib

/-!
Verification of the document structuring engine of the `docstrange` repository.

The definitions below are a shallow embedding, in Lean, of the Python code in
`docstrange/result.py` (markdown -> JSON document model, markdown -> HTML
mini-compiler, table/CSV export) and of
`docstrange/pipeline/neural_document_processor.py` (`_organize_table_data`).
Strings are modelled as `List Char` internally; regular-expression based code
is modelled by specialized scanners that follow the semantics of the concrete
patterns compiled in the source (leftmost match, greedy/lazy quantifiers as
used there, `re.sub` resuming after each replacement).  Scanners that resume
after a non-trivial match take a fuel argument so that every definition is
structurally recursive and computable by `decide`/`rfl`; the public wrappers
pass `length + 1` fuel, which is always sufficient because every step consumes
at least one character.
-/

set_option maxRecDepth 20000

namespace Docstrange

/-- Python `\s` whitespace characters (`str.strip` / `str.rstrip` set), ASCII range. -/
def isPyWs (c : Char) : Bool :=
  c = ' ' || c = '\t' || c = '\n' || c = '\r' || c = '\x0b' || c = '\x0c'

/-- Python `str.rstrip()` on a character list. -/
def pyRstripL (s : List Char) : List Char :=
  (s.reverse.dropWhile isPyWs).reverse

/-- Python `str.strip()` on a character list. -/
def pyStripL (s : List Char) : List Char :=
  pyRstripL (s.dropWhile isPyWs)

/-- Python `str.strip()` on a `String`. -/
def pyStrip (s : String) : String :=
  ⟨pyStripL s.toList⟩

/-- Python `str.split(sep)` for a one-character separator: keeps empty pieces. -/
def splitOnCharL (c : Char) : List Char → List (List Char)
  | [] => [[]]
  | x :: xs =>
    let r := splitOnCharL c xs
    if x = c then [] :: r
    else
      match r with
      | [] => [[x]]
      | h :: t => (x :: h) :: t

/-- Join pieces with a separator (inverse of `splitOnCharL` on its output). -/
def joinWithL (sep : List Char) : List (List Char) → List Char
  | [] => []
  | [x] => x
  | x :: xs => x ++ sep ++ joinWithL sep xs

/-- Boolean prefix test on character lists. -/
def isPre : List Char → List Char → Bool
  | [], _ => true
  | _ :: _, [] => false
  | a :: as, b :: bs => a = b && isPre as bs

/-- Membership of a character, as a Bool. -/
def hasChar (c : Char) (s : List Char) : Bool :=
  s.any (· = c)

/-- Does `pat` occur as a contiguous substring of `s`? -/
def containsSub (pat : List Char) : List Char → Bool
  | [] => isPre pat []
  | s@(_ :: cs) => isPre pat s || containsSub pat cs

/-- Number of (possibly overlapping) occurrences of `pat` in `s`. -/
def countSub (pat : List Char) : List Char → Nat
  | [] => 0
  | s@(_ :: cs) => (if isPre pat s then 1 else 0) + countSub pat cs

/-!
### Inline `re.sub` scanners

`findCloseLazy d acc s` models the lazy group of a pattern `D(.+?)D` (with
`D` the literal delimiter `d`): starting after the opening delimiter it
consumes at least one character (`.` does not match a newline) and stops at
the earliest position where `d` occurs.  Returns the group content and the
text after the closing delimiter.
-/
def findCloseLazy (d : List Char) : Nat → List Char → List Char → Option (List Char × List Char)
  | 0, _, _ => none
  | fuel + 1, acc, s =>
    if acc ≠ [] && isPre d s then some (acc.reverse, s.drop d.length)
    else
      match s with
      | [] => none
      | c :: cs =>
        if c = '\n' then none
        else findCloseLazy d fuel (c :: acc) cs

/-- One `re.sub` pass for a pattern `D(.+?)D` with replacement
`pre ++ group ++ suf`; on a failed match attempt the scan advances one
character, on success it resumes after the replaced text (as `re.sub` does). -/
def subDelimF (d pre suf : List Char) : Nat → List Char → List Char
  | 0, s => s
  | _ + 1, [] => []
  | fuel + 1, s@(c :: cs) =>
    if isPre d s then
      match findCloseLazy d (s.length + 1) [] (s.drop d.length) with
      | some (content, rest) => pre ++ content ++ suf ++ subDelimF d pre suf fuel rest
      | none => c :: subDelimF d pre suf fuel cs
    else c :: subDelimF d pre suf fuel cs

/-- `re.sub` for `\*\*\*(.+?)\*\*\*`, `\*\*(.+?)\*\*`, `\*(.+?)\*`, `~~(.+?)~~`. -/
def subDelim (d pre suf : List Char) (s : List Char) : List Char :=
  subDelimF d pre suf (s.length + 1) s

/-- The closing scan of the inline-code pattern: the group is `[^X]+` where
`X` is the backtick, so the content may span newlines but may not contain a
backtick anywhere (not even as its first character). -/
def findCloseCode : Nat → List Char → List Char → Option (List Char × List Char)
  | 0, _, _ => none
  | fuel + 1, acc, s =>
    match s with
    | [] => none
    | c :: cs =>
      if c = '\x60' then
        if acc ≠ [] then some (acc.reverse, cs) else none
      else findCloseCode fuel (c :: acc) cs

/-- One `re.sub` pass for the inline-code pattern (backtick, `[^backtick]+`,
backtick) with replacement `pre ++ group ++ suf`. -/
def subCodeF (pre suf : List Char) : Nat → List Char → List Char
  | 0, s => s
  | _ + 1, [] => []
  | fuel + 1, c :: cs =>
    if c = '\x60' then
      match findCloseCode (cs.length + 1) [] cs with
      | some (content, rest) => pre ++ content ++ suf ++ subCodeF pre suf fuel rest
      | none => c :: subCodeF pre suf fuel cs
    else c :: subCodeF pre suf fuel cs

def subCode (pre suf : List Char) (s : List Char) : List Char :=
  subCodeF pre suf (s.length + 1) s

/-- Scan up to (and through) the first occurrence of `stop`; returns the text
before it and the text after it.  Models a greedy `[^stop]*` followed by the
literal `stop` (the negated class may include newlines). -/
def scanUntil (stop : Char) : List Char → Option (List Char × List Char)
  | [] => none
  | c :: cs =>
    if c = stop then some ([], cs)
    else
      match scanUntil stop cs with
      | some (a, b) => some (c :: a, b)
      | none => none

/-- `re.sub` for the link pattern `\[([^\]]+)\]\(([^)]+)\)` with replacement
`<a href="url">text</a>`. -/
def subLinkF : Nat → List Char → List Char
  | 0, s => s
  | _ + 1, [] => []
  | fuel + 1, c :: cs =>
    if c = '[' then
      match scanUntil ']' cs with
      | some (txt, r1) =>
        if txt ≠ [] then
          match r1 with
          | '(' :: r2 =>
            match scanUntil ')' r2 with
            | some (url, r3) =>
              if url ≠ [] then
                ("<a href=\"".toList ++ url ++ "\">".toList ++ txt ++ "</a>".toList)
                  ++ subLinkF fuel r3
              else c :: subLinkF fuel cs
            | none => c :: subLinkF fuel cs
          | _ => c :: subLinkF fuel cs
        else c :: subLinkF fuel cs
      | none => c :: subLinkF fuel cs
    else c :: subLinkF fuel cs

def subLink (s : List Char) : List Char :=
  subLinkF (s.length + 1) s

/-- `re.sub` for the image pattern `!\[([^\]]*)\]\(([^)]+)\)` (the alt text may
be empty) with replacement `<img src="url" alt="alt">`. -/
def subImageF : Nat → List Char → List Char
  | 0, s => s
  | _ + 1, [] => []
  | fuel + 1, c :: cs =>
    if c = '!' then
      match cs with
      | c2 :: r0 =>
        if c2 = '[' then
          match scanUntil ']' r0 with
          | some (alt, r1) =>
            match r1 with
            | '(' :: r2 =>
              match scanUntil ')' r2 with
              | some (url, r3) =>
                if url ≠ [] then
                  ("<img src=\"".toList ++ url ++ "\" alt=\"".toList ++ alt ++ "\">".toList)
                    ++ subImageF fuel r3
                else c :: subImageF fuel cs
              | none => c :: subImageF fuel cs
            | _ => c :: subImageF fuel cs
          | none => c :: subImageF fuel cs
        else c :: subImageF fuel cs
      | [] => c :: subImageF fuel cs
    else c :: subImageF fuel cs

def subImage (s : List Char) : List Char :=
  subImageF (s.length + 1) s

/-- `MarkdownToJSONParser._clean_inline_formatting`: remove bold, then italic,
then inline-code markers (each keeping the group), then `str.strip()`. -/
def cleanInlineFormatting (s : List Char) : List Char :=
  pyStripL (subCode [] [] (subDelim ['*'] [] [] (subDelim ['*', '*'] [] [] s)))

/-- `MarkdownToHTMLConverter._process_inline_elements`: bold-italic, bold,
italic, strikethrough, inline code, links, then images, in this order. -/
def processInlineElements (s : List Char) : List Char :=
  subImage (subLink (subCode "<code>".toList "</code>".toList
    (subDelim ['~', '~'] "<del>".toList "</del>".toList
      (subDelim ['*'] "<em>".toList "</em>".toList
        (subDelim ['*', '*'] "<strong>".toList "</strong>".toList
          (subDelim ['*', '*', '*'] "<strong><em>".toList "</em></strong>".toList s))))))

example : String.mk (processInlineElements "***x***".toList) = "<strong><em>x</em></strong>" := by decide
example : String.mk (processInlineElements "**b** and *i*".toList) = "<strong>b</strong> and <em>i</em>" := by decide
example : String.mk (processInlineElements "![a](u)".toList) = "!<a href=\"u\">a</a>" := by decide
example : String.mk (processInlineElements "![](u)".toList) = "<img src=\"u\" alt=\"\">" := by decide
example : String.mk (cleanInlineFormatting "  **bold** `c` *i*  ".toList) = "bold c i" := by decide

/-!
### Line anchored patterns

The multiline patterns `^(\s*)[*\-+]\s+(.+)$`, `^(\s*)\d+\.\s+(.+)$` and
`^>\s+(.+)$` share the tail `\s+(.+)$`.  `wsContentCore` models that tail on
the text following the marker: greedy `\s+` (which may run across newlines),
then a non-empty group of non-newline characters, with the usual backtracking
when the remaining text is all whitespace.  It returns the group and the text
after the match (`$` is zero-width, so the terminating newline is not
consumed). -/
def wsContentCore (r2 : List Char) : Option (List Char × List Char) :=
  let w2 := r2.takeWhile isPyWs
  if w2 = [] then none
  else
    let after := r2.drop w2.length
    match after with
    | [] =>
      let rev := r2.reverse.dropWhile (· = '\n')
      match rev with
      | [] => none
      | c :: restRev => if restRev = [] then none else some ([c], r2.drop rev.length)
    | _ =>
      let content := after.takeWhile (· ≠ '\n')
      some (content, after.drop content.length)

/-- Match of the unordered list-item pattern at a line start; returns the text
after the matched (removed) region. -/
def attemptUnorderedLine (s : List Char) : Option (List Char) :=
  let w := s.takeWhile isPyWs
  match s.drop w.length with
  | m :: r2 =>
    if m = '*' || m = '-' || m = '+' then (wsContentCore r2).map (·.2) else none
  | [] => none

/-- Match of the ordered list-item pattern at a line start. -/
def attemptOrderedLine (s : List Char) : Option (List Char) :=
  let w := s.takeWhile isPyWs
  let r1 := s.drop w.length
  let d := r1.takeWhile Char.isDigit
  if d = [] then none
  else
    match r1.drop d.length with
    | c :: r2 => if c = '.' then (wsContentCore r2).map (·.2) else none
    | [] => none

/-- Match of the blockquote pattern `^>\s+(.+)$` at a line start; returns the
group and the text after the match. -/
def attemptBQ (s : List Char) : Option (List Char × List Char) :=
  match s with
  | c :: r2 => if c = '>' then wsContentCore r2 else none
  | [] => none

/-- `re.sub(pattern, '', text)` for a `^`-anchored multiline pattern: the scan
tries `attempt` at every line-start position and otherwise copies characters. -/
def subMLF (attempt : List Char → Option (List Char)) : Nat → Bool → List Char → List Char
  | 0, _, s => s
  | _ + 1, _, [] => []
  | fuel + 1, atStart, s@(c :: cs) =>
    if atStart then
      match attempt s with
      | some rest => subMLF attempt fuel false rest
      | none => c :: subMLF attempt fuel (c = '\n') cs
    else c :: subMLF attempt fuel (c = '\n') cs

def subML (attempt : List Char → Option (List Char)) (s : List Char) : List Char :=
  subMLF attempt (s.length + 1) true s

/-- `re.finditer` for the blockquote pattern, returning the raw groups. -/
def bqFindF : Nat → Bool → List Char → List (List Char)
  | 0, _, _ => []
  | _ + 1, _, [] => []
  | fuel + 1, atStart, s@(c :: cs) =>
    if atStart then
      match attemptBQ s with
      | some (g, rest) => g :: bqFindF fuel false rest
      | none => bqFindF fuel (c = '\n') cs
    else bqFindF fuel (c = '\n') cs

def bqFind (s : List Char) : List (List Char) :=
  bqFindF (s.length + 1) true s

/-- `MarkdownToJSONParser._extract_blockquotes`: each group, stripped. -/
def extractBlockquotes (s : List Char) : List String :=
  (bqFind s).map (fun g => String.mk (pyStripL g))

/-- `re.match` of the header pattern `^(#{1,6})\s+(.+)$` against a single line
(no newline inside); returns the level and the stripped title. -/
def headerLineMatch (line : List Char) : Option (Nat × List Char) :=
  let k := (line.takeWhile (· = '#')).length
  let rest := line.drop k
  if 1 ≤ k && k ≤ 6 then
    match rest with
    | c :: _ :: _ => if isPyWs c then some (k, pyStripL rest) else none
    | _ => none
  else none

/-- `re.match` of the unordered list-item pattern against a single line;
returns the indent width (length of group 1) and the text after the marker
(whose cleaned, stripped form equals the cleaned group 2). -/
def unorderedItemMatch (line : List Char) : Option (Nat × List Char) :=
  let w := line.takeWhile isPyWs
  match line.drop w.length with
  | m :: r2 =>
    if m = '*' || m = '-' || m = '+' then
      match r2 with
      | c :: _ :: _ => if isPyWs c then some (w.length, r2) else none
      | _ => none
    else none
  | [] => none

/-- `re.match` of the ordered list-item pattern against a single line. -/
def orderedItemMatch (line : List Char) : Option (Nat × List Char) :=
  let w := line.takeWhile isPyWs
  let r1 := line.drop w.length
  let d := r1.takeWhile Char.isDigit
  if d = [] then none
  else
    match r1.drop d.length with
    | c0 :: r2 =>
      if c0 = '.' then
        match r2 with
        | c :: _ :: _ => if isPyWs c then some (w.length, r2) else none
        | _ => none
      else none
    | [] => none

/-- One item of a parsed markdown list. -/
structure ListItem where
  text : String
  level : Nat
deriving DecidableEq, Repr

/-- A parsed markdown list block (`ordered = false` is an unordered list). -/
structure MdList where
  ordered : Bool
  items : List ListItem
deriving DecidableEq, Repr

/-- The line loop of `MarkdownToJSONParser._extract_lists`. -/
def extractListsGo : List (List Char) → Option (Bool × List ListItem) → List MdList → List MdList
  | [], cur, acc =>
    match cur with
    | some (o, its) => acc ++ [⟨o, its⟩]
    | none => acc
  | l :: ls, cur, acc =>
    let line := pyRstripL l
    match unorderedItemMatch line with
    | some (ind, r2) =>
      let item : ListItem := ⟨String.mk (cleanInlineFormatting r2), ind / 2⟩
      match cur with
      | some (false, its) => extractListsGo ls (some (false, its ++ [item])) acc
      | some (true, its) => extractListsGo ls (some (false, [item])) (acc ++ [⟨true, its⟩])
      | none => extractListsGo ls (some (false, [item])) acc
    | none =>
      match orderedItemMatch line with
      | some (ind, r2) =>
        let item : ListItem := ⟨String.mk (cleanInlineFormatting r2), ind / 2⟩
        match cur with
        | some (true, its) => extractListsGo ls (some (true, its ++ [item])) acc
        | some (false, its) => extractListsGo ls (some (true, [item])) (acc ++ [⟨false, its⟩])
        | none => extractListsGo ls (some (true, [item])) acc
      | none =>
        if pyStripL line ≠ [] then
          match cur with
          | some (o, its) => extractListsGo ls none (acc ++ [⟨o, its⟩])
          | none => extractListsGo ls none acc
        else extractListsGo ls cur acc

/-- `MarkdownToJSONParser._extract_lists`. -/
def extractLists (content : List Char) : List MdList :=
  extractListsGo (splitOnCharL '\n' content) none []

/-- First occurrence of `pat` as a substring: text before it and text after it. -/
def findSub (pat : List Char) : List Char → Option (List Char × List Char)
  | [] => if pat = [] then some ([], []) else none
  | s@(c :: cs) =>
    if isPre pat s then some ([], s.drop pat.length)
    else (findSub pat cs).map (fun p => (c :: p.1, p.2))

/-- Python `\w` (ASCII). -/
def isWordC (c : Char) : Bool :=
  c.isAlphanum || c = '_'

/-- Three backticks. -/
def fence : List Char := ['\x60', '\x60', '\x60']

/-- Match of the fenced code-block pattern (three backticks, optional word as
language, a newline, then a lazy body up to the next three backticks) at the
current position; returns (language chars, body, rest). -/
def codeBlockMatchAt (s : List Char) : Option (List Char × List Char × List Char) :=
  if isPre fence s then
    let r0 := s.drop 3
    let w := r0.takeWhile isWordC
    match r0.drop w.length with
    | '\n' :: r1 =>
      match findSub fence r1 with
      | some (body, rest) => some (w, body, rest)
      | none => none
    | _ => none
  else none

/-- `code_block_pattern.sub('', text)`. -/
def subCodeBlocksF : Nat → List Char → List Char
  | 0, s => s
  | _ + 1, [] => []
  | fuel + 1, s@(c :: cs) =>
    match codeBlockMatchAt s with
    | some (_, _, rest) => subCodeBlocksF fuel rest
    | none => c :: subCodeBlocksF fuel cs

def subCodeBlocks (s : List Char) : List Char :=
  subCodeBlocksF (s.length + 1) s

/-- A parsed fenced code block. -/
structure CodeBlock where
  language : String
  code : String
deriving DecidableEq, Repr

/-- `MarkdownToJSONParser._extract_code_blocks`. -/
def codeBlocksFindF : Nat → List Char → List CodeBlock
  | 0, _ => []
  | _ + 1, [] => []
  | fuel + 1, s@(_ :: cs) =>
    match codeBlockMatchAt s with
    | some (w, body, rest) =>
      ⟨if w = [] then "text" else String.mk w, String.mk (pyStripL body)⟩ :: codeBlocksFindF fuel rest
    | none => codeBlocksFindF fuel cs

def extractCodeBlocks (s : List Char) : List CodeBlock :=
  codeBlocksFindF (s.length + 1) s

/-- `re.sub(r'\|.*\|', '', text)`: inside one line, from a pipe to the last
pipe of that line. -/
def subPipeF : Nat → List Char → List Char
  | 0, s => s
  | _ + 1, [] => []
  | fuel + 1, c :: cs =>
    if c = '|' then
      let lr := cs.takeWhile (· ≠ '\n')
      let revDrop := lr.reverse.dropWhile (· ≠ '|')
      if revDrop = [] then c :: subPipeF fuel cs
      else subPipeF fuel (cs.drop revDrop.length)
    else c :: subPipeF fuel cs

def subPipe (s : List Char) : List Char :=
  subPipeF (s.length + 1) s

example : String.mk (subPipe "x | a | y\nkeep".toList) = "x  y\nkeep" := by decide
example : String.mk (subML attemptUnorderedLine "a\n- x\nb".toList) = "a\n\nb" := by decide
example : String.mk (subCodeBlocks "a\n\x60\x60\x60py\ncode\x60\x60\x60b".toList) = "a\nb" := by decide
example : extractBlockquotes "> hi\nx\n> yo".toList = ["hi", "yo"] := by decide
example : extractLists "- a\n- b\n1. c".toList =
    [⟨false, [⟨"a", 0⟩, ⟨"b", 0⟩]⟩, ⟨true, [⟨"c", 0⟩]⟩] := by decide
example : headerLineMatch "## Hello world".toList = some (2, "Hello world".toList) := by decide
example : headerLineMatch "####### nope".toList = none := by decide

/-!
### Images and links (`re.finditer`)
-/

/-- A parsed image reference. -/
structure MdImage where
  altText : String
  url : String
deriving DecidableEq, Repr

/-- A parsed link. -/
structure MdLink where
  text : String
  url : String
deriving DecidableEq, Repr

/-- `re.finditer` for the link pattern; returns (text, url) pairs. -/
def linkFindF : Nat → List Char → List (List Char × List Char)
  | 0, _ => []
  | _ + 1, [] => []
  | fuel + 1, c :: cs =>
    if c = '[' then
      match scanUntil ']' cs with
      | some (txt, r1) =>
        if txt ≠ [] then
          match r1 with
          | '(' :: r2 =>
            match scanUntil ')' r2 with
            | some (url, r3) =>
              if url ≠ [] then (txt, url) :: linkFindF fuel r3 else linkFindF fuel cs
            | none => linkFindF fuel cs
          | _ => linkFindF fuel cs
        else linkFindF fuel cs
      | none => linkFindF fuel cs
    else linkFindF fuel cs

/-- `re.finditer` for the image pattern; returns (alt, url) pairs. -/
def imageFindF : Nat → List Char → List (List Char × List Char)
  | 0, _ => []
  | _ + 1, [] => []
  | fuel + 1, c :: cs =>
    if c = '!' then
      match cs with
      | '[' :: r0 =>
        match scanUntil ']' r0 with
        | some (alt, r1) =>
          match r1 with
          | '(' :: r2 =>
            match scanUntil ')' r2 with
            | some (url, r3) =>
              if url ≠ [] then (alt, url) :: imageFindF fuel r3 else imageFindF fuel cs
            | none => imageFindF fuel cs
          | _ => imageFindF fuel cs
        | none => imageFindF fuel cs
      | _ => imageFindF fuel cs
    else imageFindF fuel cs

/-- `MarkdownToJSONParser._extract_images`. -/
def extractImages (s : List Char) : List MdImage :=
  (imageFindF (s.length + 1) s).map (fun p => ⟨String.mk p.1, String.mk p.2⟩)

/-- `MarkdownToJSONParser._extract_links`. -/
def extractLinks (s : List Char) : List MdLink :=
  (linkFindF (s.length + 1) s).map (fun p => ⟨String.mk p.1, String.mk p.2⟩)

/-!
### GFM pipe tables (`table_pattern.finditer`)

The pattern is
`\|(.+)\|\s*\n\|[-\s|:]+\|\s*\n((?:\|.+\|\s*\n?)*)`.
A match starts at a pipe; group 1 is the text between that pipe and the last
pipe of the same line whose line suffix is whitespace; `\s*\n` then allows
whitespace-only lines before the separator line, which must start with a pipe,
contain only `-`, `:`, `|` and whitespace, end in a pipe (plus trailing
whitespace) and be terminated by a newline.  Group 2 greedily collects body
rows: lines starting with a pipe and containing a second pipe at least one
character later, each row consumed up to the last pipe of its line, with
trailing whitespace (including blank lines) absorbed between rows.
-/

/-- The separator-row character class `[-\s|:]`. -/
def sepChar (c : Char) : Bool :=
  c = '-' || c = ':' || c = '|' || isPyWs c

/-- On the rest of a header line (after its opening pipe), find the last pipe
whose suffix within the line is all whitespace; returns group 1. -/
def lineLastPipeWsSuffix (lr : List Char) : Option (List Char) :=
  match lr.reverse.dropWhile isPyWs with
  | '|' :: restRev => if restRev = [] then none else some restRev.reverse
  | _ => none

/-- Skip whitespace-only lines (each must be newline-terminated); `none` if
the text ends inside them. -/
def skipBlankLines : Nat → List Char → Option (List Char)
  | 0, s => some s
  | fuel + 1, s =>
    let l := s.takeWhile (· ≠ '\n')
    if l.all isPyWs then
      if s.length = l.length then none
      else skipBlankLines fuel (s.drop (l.length + 1))
    else some s

/-- The greedy `(?:\|.+\|\s*\n?)*` loop: returns (group 2, rest). -/
def rowsLoopF : Nat → List Char → List Char → List Char × List Char
  | 0, acc, r => (acc, r)
  | fuel + 1, acc, r =>
    match r with
    | '|' :: t =>
      let lr := t.takeWhile (· ≠ '\n')
      let revDrop := lr.reverse.dropWhile (· ≠ '|')
      if 2 ≤ revDrop.length then
        let afterRow := r.drop (1 + revDrop.length)
        let ws := afterRow.takeWhile isPyWs
        rowsLoopF fuel (acc ++ ('|' :: lr.take revDrop.length) ++ ws) (afterRow.drop ws.length)
      else (acc, r)
    | _ => (acc, r)

/-- Try to match the table pattern at the current position; returns
(group 1, group 2, rest of the text after the match). -/
def tableMatchAt (s : List Char) : Option (List Char × List Char × List Char) :=
  match s with
  | c0 :: t =>
    if c0 ≠ '|' then none
    else
    let hline := t.takeWhile (· ≠ '\n')
    if t.length = hline.length then none
    else
      match lineLastPipeWsSuffix hline with
      | none => none
      | some g1 =>
        let rest1 := t.drop (hline.length + 1)
        match skipBlankLines (rest1.length + 1) rest1 with
        | none => none
        | some rest2 =>
          match rest2 with
          | '|' :: st =>
            let sline := st.takeWhile (· ≠ '\n')
            if st.length = sline.length then none
            else
              match sline.reverse.dropWhile isPyWs with
              | '|' :: restRev =>
                if restRev ≠ [] && restRev.all sepChar then
                  let rest3 := st.drop (sline.length + 1)
                  let rest3b :=
                    match skipBlankLines (rest3.length + 1) rest3 with
                    | some r => r
                    | none => rest3
                  match rest3b with
                  | '|' :: _ =>
                    let (g2, rest) := rowsLoopF (rest3b.length + 1) [] rest3b
                    some (g1, g2, rest)
                  | _ => some (g1, [], rest3)
                else none
              | _ => none
          | _ => none
  | [] => none

/-- `table_pattern.finditer`: all (group 1, group 2) pairs. -/
def tableFindF : Nat → List Char → List (List Char × List Char)
  | 0, _ => []
  | _ + 1, [] => []
  | fuel + 1, s@(_ :: cs) =>
    match tableMatchAt s with
    | some (g1, g2, rest) => (g1, g2) :: tableFindF fuel rest
    | none => tableFindF fuel cs

/-- A parsed GFM table. -/
structure MdTable where
  headers : List String
  rows : List (List String)
  columns : Nat
deriving DecidableEq, Repr

/-- `[cell.strip() for cell in line.split('|') if cell.strip()]`. -/
def parseCellsFiltered (line : List Char) : List String :=
  ((splitOnCharL '|' line).map pyStripL).filterMap
    (fun c => if c = [] then none else some (String.mk c))

/-- Build one table from the two raw match groups (`None` when the header or
body parses to nothing, as in the source's `if headers and rows`). -/
def tableOfGroups (g1 g2 : List Char) : Option MdTable :=
  let headers := parseCellsFiltered (pyStripL g1)
  let rows := (splitOnCharL '\n' (pyStripL g2)).filterMap fun line =>
    if pyStripL line ≠ [] && hasChar '|' line then
      let cells := parseCellsFiltered line
      if cells ≠ [] then some cells else none
    else none
  if headers ≠ [] && rows ≠ [] then some ⟨headers, rows, headers.length⟩ else none

/-- `MarkdownToJSONParser._extract_tables` (the identical code is also
`ConversionResult._extract_markdown_tables_directly`). -/
def extractTablesL (content : List Char) : List MdTable :=
  (tableFindF (content.length + 1) content).filterMap (fun p => tableOfGroups p.1 p.2)

def extractTables (content : String) : List MdTable :=
  extractTablesL content.toList

example : extractTables "| A | B |\n|---|---|\n| 1 | 2 |" =
    [⟨["A", "B"], [["1", "2"]], 2⟩] := by decide
example : extractTables "| A | B |\n|---|---|\n| 1 | 2 | 3 |\n| 4 |\n" =
    [⟨["A", "B"], [["1", "2", "3"], ["4"]], 2⟩] := by decide
example : extractTables "no table here" = [] := by decide

/-!
### Section content (`MarkdownToJSONParser._parse_content`)
-/

/-- Python `str.split(sep)` for a multi-character separator. -/
def splitOnSubF (pat : List Char) : Nat → List Char → List (List Char)
  | 0, s => [s]
  | _ + 1, [] => [[]]
  | fuel + 1, s@(c :: cs) =>
    if isPre pat s then [] :: splitOnSubF pat fuel (s.drop pat.length)
    else
      match splitOnSubF pat fuel cs with
      | [] => [[c]]
      | h :: t => (c :: h) :: t

def splitOnSub (pat s : List Char) : List (List Char) :=
  splitOnSubF pat (s.length + 1) s

/-- `MarkdownToJSONParser._extract_paragraphs`: strip code blocks, pipe
spans, list items and blockquotes, split on blank lines, keep non-empty
chunks not starting with `#`, and clean inline formatting. -/
def extractParagraphs (content : List Char) : List String :=
  let c1 := subCodeBlocks content
  let c2 := subPipe c1
  let c3 := subML attemptUnorderedLine c2
  let c4 := subML attemptOrderedLine c3
  let c5 := subML (fun s => (attemptBQ s).map (·.2)) c4
  ((splitOnSub "\n\n".toList c5).map pyStripL).filterMap fun p =>
    match p with
    | [] => none
    | c :: _ => if c = '#' then none else some (String.mk (cleanInlineFormatting p))

/-- The content of one section (the source stores a dict whose keys are
present exactly when the corresponding list is non-empty). -/
structure SContent where
  paragraphs : List String
  lists : List MdList
  codeBlocks : List CodeBlock
  tables : List MdTable
  images : List MdImage
  links : List MdLink
  blockquotes : List String
deriving DecidableEq, Repr

def emptyContent : SContent := ⟨[], [], [], [], [], [], []⟩

/-- `MarkdownToJSONParser._parse_content`. -/
def parseSectionContent (content : List Char) : SContent :=
  if pyStripL content = [] then emptyContent
  else
    ⟨extractParagraphs content, extractLists content, extractCodeBlocks content,
     extractTablesL content, extractImages content, extractLinks content,
     extractBlockquotes content⟩

/-!
### `MarkdownToJSONParser.parse`: flat sections, hierarchy, metadata
-/

/-- A flat (pre-hierarchy) section. -/
structure FlatSec where
  title : String
  level : Nat
  content : SContent
deriving DecidableEq, Repr

/-- The main line loop of `parse`: collect flat sections.  Content seen
before the first header is buffered but dropped when a header arrives; it
becomes a synthetic "Content" section only when no header ever arrives. -/
def parseLinesGo : List (List Char) → Option (String × Nat) → List (List Char) → List FlatSec → List FlatSec
  | [], cur, buf, acc =>
    match cur with
    | some (t, k) => acc ++ [⟨t, k, parseSectionContent (joinWithL ['\n'] buf)⟩]
    | none =>
      if buf ≠ [] then acc ++ [⟨"Content", 1, parseSectionContent (joinWithL ['\n'] buf)⟩]
      else acc
  | l :: ls, cur, buf, acc =>
    let line := pyRstripL l
    match headerLineMatch line with
    | some (k, title) =>
      let acc' :=
        match cur with
        | some (t, k0) => acc ++ [⟨t, k0, parseSectionContent (joinWithL ['\n'] buf)⟩]
        | none => acc
      parseLinesGo ls (some (String.mk title, k)) [] acc'
    | none =>
      if pyStripL line ≠ [] || buf ≠ [] then parseLinesGo ls cur (buf ++ [line]) acc
      else parseLinesGo ls cur buf acc

/-- A hierarchical section: title, level, content, subsections. -/
inductive Sec where
  | mk (title : String) (level : Nat) (content : SContent) (subs : List Sec)

def Sec.title : Sec → String
  | .mk t _ _ _ => t

def Sec.level : Sec → Nat
  | .mk _ l _ _ => l

def Sec.content : Sec → SContent
  | .mk _ _ c _ => c

def Sec.subs : Sec → List Sec
  | .mk _ _ _ s => s

/-- Append a completed child to a parent section's subsections. -/
def appendChild : Sec → Sec → Sec
  | .mk t l c subs, child => .mk t l c (subs ++ [child])

/-- `while stack and stack[-1]['level'] >= level: stack.pop()`, in the
deferred-attachment formulation: a popped section is complete, so it is
attached to the section below it (its parent) or emitted as a top-level
section.  Fueled so that the definition is structural (fuel `length + 1`
always suffices). -/
def popAttachF : Nat → List Sec → List Sec → Nat → List Sec × List Sec
  | 0, st, res, _ => (st, res)
  | fuel + 1, st, res, lv =>
    match st with
    | [] => ([], res)
    | t :: rest =>
      if lv ≤ t.level then
        match rest with
        | [] => popAttachF fuel [] (res ++ [t]) lv
        | p :: rs => popAttachF fuel (appendChild p t :: rs) res lv
      else (t :: rest, res)

/-- Processing one flat section in `_create_hierarchy`. -/
def hierStep (st : List Sec × List Sec) (f : FlatSec) : List Sec × List Sec :=
  (Sec.mk f.title f.level f.content [] :: (popAttachF (st.1.length + 1) st.1 st.2 f.level).1,
   (popAttachF (st.1.length + 1) st.1 st.2 f.level).2)

/-- Drain the stack at the end of `_create_hierarchy`. -/
def drainAllF : Nat → List Sec → List Sec → List Sec
  | 0, _, res => res
  | fuel + 1, st, res =>
    match st with
    | [] => res
    | t :: rest =>
      match rest with
      | [] => res ++ [t]
      | p :: rs => drainAllF fuel (appendChild p t :: rs) res

/-- `MarkdownToJSONParser._create_hierarchy`. -/
def createHierarchy (fs : List FlatSec) : List Sec :=
  let (stack, res) := fs.foldl hierStep ([], [])
  drainAllF (stack.length + 1) stack res

/-- A metadata value (the source stores ints and bools). -/
inductive MVal where
  | nat (n : Nat)
  | bool (b : Bool)
deriving DecidableEq, Repr

/-- The metadata dict built by `parse` for non-blank input, in source key
order. -/
def mkMetadata (flats : List FlatSec) : List (String × MVal) :=
  [("total_sections", .nat flats.length),
   ("max_heading_level", .nat (match flats.map (·.level) with
     | [] => 0
     | x :: xs => xs.foldl max x)),
   ("has_tables", .bool (flats.any fun s => !s.content.tables.isEmpty)),
   ("has_code_blocks", .bool (flats.any fun s => !s.content.codeBlocks.isEmpty)),
   ("has_lists", .bool (flats.any fun s => !s.content.lists.isEmpty)),
   ("has_images", .bool (flats.any fun s => !s.content.images.isEmpty))]

/-- The parsed document: hierarchical sections plus the metadata dict. -/
structure ParsedDoc where
  sections : List Sec
  metadata : List (String × MVal)

/-- `MarkdownToJSONParser.parse`. -/
def mdParse (s : String) : ParsedDoc :=
  if pyStrip s = "" then ⟨[], [("total_sections", .nat 0)]⟩
  else
    let flats := parseLinesGo (splitOnCharL '\n' s.toList) none [] []
    ⟨createHierarchy flats, mkMetadata flats⟩

mutual
/-- Number of sections in a section tree (each section counted once). -/
def secSize : Sec → Nat
  | .mk _ _ _ subs => 1 + secsSize subs
def secsSize : List Sec → Nat
  | [] => 0
  | s :: ss => secSize s + secsSize ss
end

mutual
/-- Checks that every subsection (at any depth) has a strictly greater level
than its parent. -/
def secWf : Sec → Bool
  | .mk _ lv _ subs => subsWf lv subs
def subsWf : Nat → List Sec → Bool
  | _, [] => true
  | p, s :: ss => (decide (p < s.level)) && secWf s && subsWf p ss
end

def forestWf : List Sec → Bool
  | [] => true
  | s :: ss => secWf s && forestWf ss

example : (mdParse "").metadata = [("total_sections", .nat 0)] := by decide
example : (mdParse "hello\n# T").sections.map Sec.title = ["T"] := by rfl
example : secsSize (mdParse "# a\n## b\n### c\n## d\n# e").sections = 5 := by rfl
example : (mdParse "# a\n## b\n### c\n## d\n# e").sections.map Sec.title = ["a", "e"] := by rfl
example : forestWf (mdParse "# a\n## b\n### c\n## d\n# e").sections = true := by rfl

/-!
### HTML table rendering (`MarkdownToHTMLConverter._convert_table_to_html`)
-/

/-- `MarkdownToHTMLConverter._escape_html`: sequential replacement of `&`
first and then the other four characters is equivalent to this per-character
map, because no replacement result contains a character replaced later. -/
def escapeHtmlC (c : Char) : List Char :=
  if c = '&' then "&amp;".toList
  else if c = '<' then "&lt;".toList
  else if c = '>' then "&gt;".toList
  else if c = '"' then "&quot;".toList
  else if c = Char.ofNat 39 then "&#39;".toList
  else [c]

def escapeHtml (s : List Char) : List Char :=
  (s.map escapeHtmlC).flatten

/-- Python `line.split('|')[1:-1]` with each cell stripped. -/
def interiorCells (line : List Char) : List (List Char) :=
  (((splitOnCharL '|' line).drop 1).dropLast).map pyStripL

/-- `MarkdownToHTMLConverter._convert_table_to_html`: line 1 is the header,
line 2 (the separator) is discarded, the remaining lines are body rows; every
row keeps exactly its own interior cells. -/
def convertTableToHtml (tableLines : List String) : String :=
  match tableLines with
  | [] => ""
  | [l] => l
  | l0 :: _ :: rest =>
    let headerCells := interiorCells l0.toList
    let headParts := ["<thead><tr>".toList]
      ++ headerCells.map (fun c => "<th>".toList ++ escapeHtml c ++ "</th>".toList)
      ++ ["</tr></thead>".toList]
    let bodyParts := ["<tbody>".toList]
      ++ (rest.map fun line =>
          let cells := interiorCells line.toList
          ["<tr>".toList]
            ++ cells.map (fun c => "<td>".toList ++ escapeHtml c ++ "</td>".toList)
            ++ ["</tr>".toList]).flatten
      ++ ["</tbody>".toList]
    String.mk (joinWithL ['\n'] (["<table>".toList] ++ headParts ++ bodyParts ++ ["</table>".toList]))

example :
    countSub "<td>".toList (convertTableToHtml ["| A | B |", "|---|---|", "| 1 | 2 | 3 |"]).toList
      = 3 := by decide

/-!
### CSV export (`ConversionResult.extract_csv`, single-table branch)
-/

/-- `csv.writer` field quoting (QUOTE_MINIMAL with the default dialect). -/
def csvNeedsQuote (s : List Char) : Bool :=
  s.any (fun c => c = ',' || c = '"' || c = '\n' || c = '\r')

def csvQuote (s : List Char) : List Char :=
  ['"'] ++ (s.map (fun c => if c = '"' then ['"', '"'] else [c])).flatten ++ ['"']

def csvField (s : String) : String :=
  if csvNeedsQuote s.toList then String.mk (csvQuote s.toList) else s

/-- `csv.writer.writerow`: comma-joined fields terminated by CRLF. -/
def csvRow (cells : List String) : String :=
  String.intercalate "," (cells.map csvField) ++ "\r\n"

/-- The single-table CSV emission: header row (when non-empty), then each
data row, each emitted with exactly its own cells. -/
def csvOfTable (t : MdTable) : String :=
  (if t.headers ≠ [] then csvRow t.headers else "") ++ String.join (t.rows.map csvRow)

mutual
/-- `extract_tables_from_sections`: pre-order collection of every table. -/
def collectTablesSec : Sec → List MdTable
  | .mk _ _ c subs => c.tables ++ collectTablesList subs
def collectTablesList : List Sec → List MdTable
  | [] => []
  | s :: ss => collectTablesSec s ++ collectTablesList ss
end

deriving instance DecidableEq for Except

/-- The two caller-visible failures of `extract_csv` (both `ValueError`s in
the source, with distinct messages). -/
inductive CsvErr where
  | noTablesFound
  | indexOutOfRange
deriving DecidableEq, Repr

/-- `ConversionResult.extract_csv(table_index, include_all_tables=False)`.
`extract_data` is modelled by the fallback `MarkdownToJSONParser.parse` path
(the optional Ollama service is external I/O, out of the specified scope). -/
def extractCsv (content : String) (tableIndex : Nat) : Except CsvErr String :=
  let docTables := collectTablesList (mdParse content).sections
  let tables := if docTables.isEmpty then extractTables content else docTables
  if tables.isEmpty then .error .noTablesFound
  else if tables.length ≤ tableIndex then .error .indexOutOfRange
  else .ok (csvOfTable (tables.getD tableIndex ⟨[], [], 0⟩))

/-- The claim-side description of `extract_csv` (C5): the fallback direct
markdown scan is consulted before declaring that there are no tables; the
no-tables failure happens exactly when both the Document Model traversal and
the fallback scan are empty; the out-of-range failure happens exactly when
some tables were found but the index is not below their count; otherwise the
CSV of table `i` is returned. -/
def extractCsvSpec (content : String) (i : Nat) : Except CsvErr String :=
  let docTables := collectTablesList (mdParse content).sections
  let fallback := extractTables content
  let found := if docTables = [] then fallback else docTables
  if docTables = [] ∧ fallback = [] then .error .noTablesFound
  else if found.length ≤ i then .error .indexOutOfRange
  else .ok (csvOfTable (found.getD i ⟨[], [], 0⟩))

example : extractCsv "| A | B |\n|---|---|\n| 1 | 2 |" 0 = .ok "A,B\r\n1,2\r\n" := by decide
example : extractCsv "| A | B |\n|---|---|\n| 1 | 2 |" 1 = .error .indexOutOfRange := by decide
example : extractCsv "nothing" 0 = .error .noTablesFound := by decide
example : extractCsv "# H\nx\n\n| A | B |\n|---|---|\n| 1 | 2 |" 0 = .ok "A,B\r\n1,2\r\n" := by decide

/-!
### Table grid reconstruction
(`NeuralDocumentProcessor._organize_table_data`)
-/

/-- One `tf_responses` element (indices are Python ints, so they may be
negative). -/
structure TfResp where
  startRowOffsetIdx : Int
  startColOffsetIdx : Int
  text : String
deriving DecidableEq, Repr

/-- `table_out`: the responses plus `predict_details.num_rows/num_cols`. -/
structure TableOut where
  tfResponses : List TfResp
  numRows : Nat
  numCols : Nat
deriving DecidableEq, Repr

/-- The result dict of `_organize_table_data`. -/
inductive TableResult where
  | structuredTable (grid : List (List String)) (numRows numCols : Nat)
  | simpleTable (data : List String)
deriving DecidableEq, Repr

/-- Python list indexing: valid for `-n ≤ i < n`, negative indices counting
from the end; `none` models an `IndexError`. -/
def pyIdx (n : Nat) (i : Int) : Option Nat :=
  if 0 ≤ i ∧ i < (n : Int) then some i.toNat
  else if -(n : Int) ≤ i ∧ i < 0 then some ((n : Int) + i).toNat
  else none

def mkGrid (r c : Nat) : List (List String) :=
  List.replicate r (List.replicate c "")

def setCell (g : List (List String)) (r c : Nat) (text : String) : List (List String) :=
  g.set r ((g.getD r []).set c text)

/-- The placement loop: `grid[row][col] = text` raises `IndexError` on the
first out-of-range index, modelled as `Except`. -/
def placeLoop (td : List String) : Nat → List TfResp → List (List String) → Nat → Nat → Except Unit (List (List String))
  | _, [], g, _, _ => .ok g
  | idx, e :: es, g, nr, nc =>
    let text := td.getD idx e.text
    match pyIdx nr e.startRowOffsetIdx, pyIdx nc e.startColOffsetIdx with
    | some r, some c => placeLoop td (idx + 1) es (setCell g r c text) nr nc
    | _, _ => .error ()

/-- `NeuralDocumentProcessor._organize_table_data`: the whole body runs under
a `try`; any exception (in particular the `IndexError` above) degrades the
result to a `simple_table` holding the raw `table_data`. -/
def organizeTableData (tableData : List String) (tableOut : TableOut) : TableResult :=
  match placeLoop tableData 0 tableOut.tfResponses
      (mkGrid tableOut.numRows tableOut.numCols) tableOut.numRows tableOut.numCols with
  | .ok g => .structuredTable g tableOut.numRows tableOut.numCols
  | .error _ => .simpleTable tableData

/-- Total placement function: the grid obtained when every response is
placed (used to state what `_organize_table_data` returns when no index is
out of range). -/
def placeAll (td : List String) : Nat → List TfResp → List (List String) → Nat → Nat → List (List String)
  | _, [], g, _, _ => g
  | idx, e :: es, g, nr, nc =>
    let text := td.getD idx e.text
    match pyIdx nr e.startRowOffsetIdx, pyIdx nc e.startColOffsetIdx with
    | some r, some c => placeAll td (idx + 1) es (setCell g r c text) nr nc
    | _, _ => placeAll td (idx + 1) es g nr nc

/-- Both indices of a response are in range for the grid. -/
def respInRange (nr nc : Nat) (e : TfResp) : Bool :=
  (pyIdx nr e.startRowOffsetIdx).isSome && (pyIdx nc e.startColOffsetIdx).isSome

example :
    organizeTableData ["X", "Y"]
      ⟨[⟨0, 0, "X"⟩, ⟨1, 1, "Y"⟩], 2, 2⟩
      = .structuredTable [["X", ""], ["", "Y"]] 2 2 := by decide
example :
    organizeTableData ["X", "Y"]
      ⟨[⟨0, 0, "X"⟩, ⟨2, 0, "Y"⟩], 2, 2⟩
      = .simpleTable ["X", "Y"] := by decide

/-!
### `ConversionResult` pass-through exports
-/

/-- `ConversionResult`: the stored converted content (the optional metadata
dict plays no role in the modelled methods). -/
structure ConversionResult where
  content : String
deriving DecidableEq, Repr

/-- `ConversionResult.extract_markdown`. -/
def ConversionResult.extractMarkdown (r : ConversionResult) : String :=
  r.content

/-- `ConversionResult.extract_text`. -/
def ConversionResult.extractText (r : ConversionResult) : String :=
  r.content

/-!
## Theorems for the claims
-/

/-- C10: `extract_markdown()` and `extract_text()` are both the identity on
the stored content: for every stored content string they return exactly that
string (and, both being pure functions of the stored content, repeated calls
return the same string). -/
theorem c10_exports_are_identity (c : String) :
    (ConversionResult.mk c).extractMarkdown = c ∧ (ConversionResult.mk c).extractText = c :=
  ⟨rfl, rfl⟩

/-- `placeLoop` succeeds with the fully placed grid exactly when every
response has in-range indices; the first out-of-range response aborts it. -/
theorem placeLoop_eq (td : List String) (nr nc : Nat) :
    ∀ (es : List TfResp) (idx : Nat) (g : List (List String)),
      placeLoop td idx es g nr nc =
        (if es.all (respInRange nr nc) then .ok (placeAll td idx es g nr nc) else .error ()) := by
  intro es
  induction es with
  | nil => intro idx g; simp [placeLoop, placeAll]
  | cons e es ih =>
    intro idx g
    cases h1 : pyIdx nr e.startRowOffsetIdx with
    | none => simp [placeLoop, respInRange, h1]
    | some r =>
      cases h2 : pyIdx nc e.startColOffsetIdx with
      | none => simp [placeLoop, respInRange, h1, h2]
      | some c =>
        simp only [placeLoop, placeAll, h1, h2, List.all_cons, respInRange,
          Option.isSome_some, Bool.true_and, Bool.and_self]
        exact ih (idx + 1) (setCell g r c (td.getD idx e.text))

/-- C2 (amended): `_organize_table_data` allocates a `num_rows x num_cols`
grid of empty strings and writes each response's text at its
`[start_row_offset_idx][start_col_offset_idx]` when every index is in range
(Python semantics, so negative indices within range count from the end); but
a single out-of-range index raises `IndexError` inside the loop, which the
surrounding `try` turns into a `simple_table` fallback holding the raw
`table_data` — in-range predictions are not kept in that case.  The call
never raises.  In particular, for `num_rows=2, num_cols=2` and predictions
`(0,0)="X"`, `(1,1)="Y"` the result is the structured grid
`[["X",""],["","Y"]]`. -/
theorem c2_organize_table_data_characterization (td : List String) (t : TableOut) :
    (organizeTableData td t =
      if t.tfResponses.all (respInRange t.numRows t.numCols) then
        TableResult.structuredTable
          (placeAll td 0 t.tfResponses (mkGrid t.numRows t.numCols) t.numRows t.numCols)
          t.numRows t.numCols
      else TableResult.simpleTable td) ∧
    organizeTableData ["X", "Y"] ⟨[⟨0, 0, "X"⟩, ⟨1, 1, "Y"⟩], 2, 2⟩
      = TableResult.structuredTable [["X", ""], ["", "Y"]] 2 2 := by
  constructor
  · unfold organizeTableData
    rw [placeLoop_eq]
    by_cases h : t.tfResponses.all (respInRange t.numRows t.numCols) = true
    · simp [h]
    · simp [h]
  · decide

/-- C2 counterexample: with `num_rows=2, num_cols=2` and predictions
`(0,0)="X"` and `(2,0)="Y"`, the claim predicts that the out-of-range
prediction is silently dropped and the grid `[["X",""],["",""]]` is returned;
the code instead returns the `simple_table` fallback. -/
theorem c2_out_of_range_not_dropped :
    organizeTableData ["X", "Y"] ⟨[⟨0, 0, "X"⟩, ⟨2, 0, "Y"⟩], 2, 2⟩
        = TableResult.simpleTable ["X", "Y"] ∧
    ¬ organizeTableData ["X", "Y"] ⟨[⟨0, 0, "X"⟩, ⟨2, 0, "Y"⟩], 2, 2⟩
        = TableResult.structuredTable [["X", ""], ["", ""]] 2 2 := by
  constructor
  · decide
  · decide

/-- C5: `extract_csv` (single-table branch) behaves exactly as described:
the Document Model traversal is consulted first; when it yields no tables the
raw markdown is scanned directly with the same GFM detection before any
failure is reported; the no-tables failure occurs precisely when both are
empty, the out-of-range failure precisely when tables were found but the
index is not below their count, and otherwise the CSV (header row then data
rows) of the selected table is returned. -/
theorem c5_extract_csv_spec (content : String) (i : Nat) :
    extractCsv content i = extractCsvSpec content i := by
  unfold extractCsv extractCsvSpec
  cases h : collectTablesList (mdParse content).sections with
  | nil =>
    cases hf : extractTables content with
    | nil => simp
    | cons a l => simp
  | cons a l => simp

theorem secsSize_append (a b : List Sec) : secsSize (a ++ b) = secsSize a + secsSize b := by
  induction a with
  | nil => simp [secsSize]
  | cons s ss ih => simp [secsSize, ih]; omega

theorem secSize_appendChild (p t : Sec) : secSize (appendChild p t) = secSize p + secSize t := by
  cases p with
  | mk ti lv c subs =>
    simp [appendChild, secSize, secsSize_append, secsSize]
    omega

theorem popAttachF_size (fuel : Nat) :
    ∀ (st res : List Sec) (lv : Nat),
      secsSize (popAttachF fuel st res lv).1 + secsSize (popAttachF fuel st res lv).2
        = secsSize st + secsSize res := by
  induction fuel with
  | zero => intro st res lv; rfl
  | succ n ih =>
    intro st res lv
    cases st with
    | nil => simp [popAttachF, secsSize]
    | cons t rest =>
      by_cases h : lv ≤ t.level
      · cases rest with
        | nil =>
          simp only [popAttachF, if_pos h]
          rw [ih]
          simp [secsSize, secsSize_append]
          omega
        | cons p rs =>
          simp only [popAttachF, if_pos h]
          rw [ih]
          simp [secsSize, secSize_appendChild]
          omega
      · simp [popAttachF, if_neg h]

theorem hierStep_size (st : List Sec × List Sec) (f : FlatSec) :
    secsSize (hierStep st f).1 + secsSize (hierStep st f).2
      = secsSize st.1 + secsSize st.2 + 1 := by
  unfold hierStep
  have h := popAttachF_size (st.1.length + 1) st.1 st.2 f.level
  simp only [secsSize, secSize]
  omega

theorem foldl_hierStep_size (fs : List FlatSec) :
    ∀ (st : List Sec × List Sec),
      secsSize (fs.foldl hierStep st).1 + secsSize (fs.foldl hierStep st).2
        = secsSize st.1 + secsSize st.2 + fs.length := by
  induction fs with
  | nil => intro st; simp
  | cons f fs ih =>
    intro st
    simp only [List.foldl_cons, List.length_cons]
    rw [ih]
    have := hierStep_size st f
    omega

theorem drainAllF_size (fuel : Nat) :
    ∀ (st res : List Sec), st.length ≤ fuel →
      secsSize (drainAllF fuel st res) = secsSize st + secsSize res := by
  induction fuel with
  | zero =>
    intro st res h
    have : st = [] := List.length_eq_zero.mp (Nat.le_zero.mp h)
    subst this
    simp [drainAllF, secsSize]
  | succ n ih =>
    intro st res h
    cases st with
    | nil => simp [drainAllF, secsSize]
    | cons t rest =>
      cases rest with
      | nil =>
        simp [drainAllF, secsSize_append, secsSize]
        omega
      | cons p rs =>
        simp only [drainAllF]
        rw [ih]
        · simp [secsSize, secSize_appendChild]; omega
        · simp at h ⊢; omega

theorem createHierarchy_size (fs : List FlatSec) :
    secsSize (createHierarchy fs) = fs.length := by
  unfold createHierarchy
  have hf := foldl_hierStep_size fs ([], [])
  rw [drainAllF_size]
  · simp only [secsSize] at hf ⊢
    omega
  · omega

theorem appendChild_level (p t : Sec) : (appendChild p t).level = p.level := by
  cases p; rfl

theorem subsWf_append (p : Nat) (l : List Sec) (t : Sec) :
    subsWf p (l ++ [t]) = (subsWf p l && (decide (p < t.level) && secWf t)) := by
  induction l with
  | nil => simp [subsWf]
  | cons s ss ih =>
    simp [subsWf, ih]
    cases decide (p < s.level) <;> cases secWf s <;> simp

theorem secWf_appendChild (p t : Sec) (hlt : p.level < t.level)
    (ht : secWf t = true) (hp : secWf p = true) : secWf (appendChild p t) = true := by
  cases p with
  | mk ti lv c subs =>
    simp only [appendChild, secWf, subsWf_append]
    simp only [secWf] at hp
    simp [hp, ht]
    exact hlt

/-- The stack of `_create_hierarchy` always has strictly decreasing levels
from its top (head) to its bottom. -/
def StackLt : List Sec → Prop
  | [] => True
  | [_] => True
  | a :: b :: r => b.level < a.level ∧ StackLt (b :: r)

theorem stackLt_cons_of (a : Sec) (l : List Sec)
    (h : ∀ b, l.head? = some b → b.level < a.level) (hl : StackLt l) :
    StackLt (a :: l) := by
  cases l with
  | nil => trivial
  | cons b r => exact ⟨h b rfl, hl⟩

theorem stackLt_appendChild (p t : Sec) (rs : List Sec)
    (h : StackLt (p :: rs)) : StackLt (appendChild p t :: rs) := by
  cases rs with
  | nil => trivial
  | cons r0 rs' =>
    obtain ⟨h1, h2⟩ := h
    exact ⟨by rw [appendChild_level]; exact h1, h2⟩

theorem forestWf_append (a b : List Sec) :
    forestWf (a ++ b) = (forestWf a && forestWf b) := by
  induction a with
  | nil => simp [forestWf]
  | cons s ss ih => simp [forestWf, ih, Bool.and_assoc]

theorem popAttachF_wf (fuel : Nat) :
    ∀ (st res : List Sec) (lv : Nat),
      StackLt st → (∀ t ∈ st, secWf t = true) → forestWf res = true →
      StackLt (popAttachF fuel st res lv).1 ∧
      (∀ t ∈ (popAttachF fuel st res lv).1, secWf t = true) ∧
      forestWf (popAttachF fuel st res lv).2 = true ∧
      (st.length ≤ fuel →
        ∀ t, (popAttachF fuel st res lv).1.head? = some t → t.level < lv) := by
  induction fuel with
  | zero =>
    intro st res lv h1 h2 h3
    refine ⟨h1, h2, h3, ?_⟩
    intro hlen t ht
    have : st = [] := List.length_eq_zero.mp (Nat.le_zero.mp hlen)
    subst this
    simp [popAttachF] at ht
  | succ n ih =>
    intro st res lv h1 h2 h3
    cases st with
    | nil =>
      refine ⟨trivial, by simp [popAttachF], by simpa [popAttachF] using h3, ?_⟩
      intro _ t ht
      simp [popAttachF] at ht
    | cons t rest =>
      by_cases h : lv ≤ t.level
      · cases rest with
        | nil =>
          simp only [popAttachF, if_pos h]
          have hres : forestWf (res ++ [t]) = true := by
            rw [forestWf_append]
            have := h2 t (by simp)
            simp [forestWf, this, h3]
          have := ih [] (res ++ [t]) lv trivial (by simp) hres
          refine ⟨this.1, this.2.1, this.2.2.1, ?_⟩
          intro _ u hu
          exact this.2.2.2 (by simp) u hu
        | cons p rs =>
          simp only [popAttachF, if_pos h]
          have hchain : StackLt (appendChild p t :: rs) := by
            apply stackLt_appendChild
            exact h1.2
          have hmem : ∀ u ∈ appendChild p t :: rs, secWf u = true := by
            intro u hu
            rcases List.mem_cons.mp hu with hu | hu
            · subst hu
              exact secWf_appendChild p t h1.1 (h2 t (by simp)) (h2 p (by simp))
            · exact h2 u (by simp [hu])
          have := ih (appendChild p t :: rs) res lv hchain hmem h3
          refine ⟨this.1, this.2.1, this.2.2.1, ?_⟩
          intro hlen u hu
          apply this.2.2.2 _ u hu
          simp at hlen ⊢
          omega
      · simp only [popAttachF, if_neg h]
        refine ⟨h1, h2, h3, ?_⟩
        intro _ u hu
        simp at hu
        subst hu
        omega

theorem hierStep_wf (st : List Sec × List Sec) (f : FlatSec)
    (h1 : StackLt st.1) (h2 : ∀ t ∈ st.1, secWf t = true) (h3 : forestWf st.2 = true) :
    StackLt (hierStep st f).1 ∧ (∀ t ∈ (hierStep st f).1, secWf t = true) ∧
      forestWf (hierStep st f).2 = true := by
  have hp := popAttachF_wf (st.1.length + 1) st.1 st.2 f.level h1 h2 h3
  unfold hierStep
  refine ⟨?_, ?_, hp.2.2.1⟩
  · apply stackLt_cons_of _ _ _ hp.1
    intro b hb
    have := hp.2.2.2 (by omega) b hb
    simpa [Sec.level] using this
  · intro t ht
    rcases List.mem_cons.mp ht with ht | ht
    · subst ht
      simp [secWf, subsWf]
    · exact hp.2.1 t ht

theorem foldl_hierStep_wf (fs : List FlatSec) :
    ∀ (st : List Sec × List Sec),
      StackLt st.1 → (∀ t ∈ st.1, secWf t = true) → forestWf st.2 = true →
      StackLt (fs.foldl hierStep st).1 ∧
      (∀ t ∈ (fs.foldl hierStep st).1, secWf t = true) ∧
      forestWf (fs.foldl hierStep st).2 = true := by
  induction fs with
  | nil => intro st h1 h2 h3; exact ⟨h1, h2, h3⟩
  | cons f fs ih =>
    intro st h1 h2 h3
    have := hierStep_wf st f h1 h2 h3
    exact ih (hierStep st f) this.1 this.2.1 this.2.2

theorem drainAllF_wf (fuel : Nat) :
    ∀ (st res : List Sec),
      StackLt st → (∀ t ∈ st, secWf t = true) → forestWf res = true →
      forestWf (drainAllF fuel st res) = true := by
  induction fuel with
  | zero => intro st res _ _ h3; exact h3
  | succ n ih =>
    intro st res h1 h2 h3
    cases st with
    | nil => simpa [drainAllF] using h3
    | cons t rest =>
      cases rest with
      | nil =>
        simp only [drainAllF]
        rw [forestWf_append]
        have := h2 t (by simp)
        simp [forestWf, this, h3]
      | cons p rs =>
        simp only [drainAllF]
        apply ih
        · exact stackLt_appendChild p t rs h1.2
        · intro u hu
          rcases List.mem_cons.mp hu with hu | hu
          · subst hu
            exact secWf_appendChild p t h1.1 (h2 t (by simp)) (h2 p (by simp))
          · exact h2 u (by simp [hu])
        · exact h3

theorem createHierarchy_wf (fs : List FlatSec) :
    forestWf (createHierarchy fs) = true := by
  unfold createHierarchy
  have hf := foldl_hierStep_wf fs ([], []) trivial (by simp) rfl
  exact drainAllF_wf _ _ _ hf.1 hf.2.1 hf.2.2

/-- C7: in every document model produced by the markdown parser, every
subsection (at any depth) has a heading level strictly greater than its
parent section's level. -/
theorem c7_subsection_levels_strictly_greater (s : String) :
    forestWf (mdParse s).sections = true := by
  unfold mdParse
  by_cases h : pyStrip s = ""
  · simp [h, forestWf]
  · simp [h, createHierarchy_wf]

/-- C8: for every markdown input, the `total_sections` metadata entry equals
the number of sections obtained by flattening the returned hierarchical
section tree (each section, including a synthetic "Content" section, counted
exactly once). -/
theorem c8_total_sections_eq_tree_size (s : String) :
    (mdParse s).metadata.lookup "total_sections"
      = some (MVal.nat (secsSize (mdParse s).sections)) := by
  unfold mdParse
  by_cases h : pyStrip s = ""
  · simp [h, secsSize, List.lookup]
  · simp [h, mkMetadata, List.lookup, createHierarchy_size]

/-- C9 (amended): for non-blank markdown input the metadata object carries
all six fields, in source order; for empty or whitespace-only input the
early-return branch builds a metadata object holding only `total_sections`. -/
theorem c9_metadata_keys (s : String) :
    (mdParse s).metadata.map Prod.fst =
      (if pyStrip s = "" then ["total_sections"]
       else ["total_sections", "max_heading_level", "has_tables", "has_code_blocks",
             "has_lists", "has_images"]) := by
  unfold mdParse
  by_cases h : pyStrip s = "" <;> simp [h, mkMetadata]

/-- C9 counterexample: for empty input the metadata object contains only
`total_sections`; the five other fields promised by the claim are absent. -/
theorem c9_empty_input_metadata_incomplete :
    (mdParse "").metadata.map Prod.fst = ["total_sections"] ∧
    "has_tables" ∉ (mdParse "").metadata.map Prod.fst ∧
    "max_heading_level" ∉ (mdParse "").metadata.map Prod.fst := by
  refine ⟨by decide, by decide, by decide⟩

/-!
### The pre-header content behaviour (`parse` line loop)
-/

/-- The lines of the input as the parse loop sees them (split on newlines,
each right-stripped). -/
def mdLines (s : String) : List (List Char) :=
  (splitOnCharL '\n' s.toList).map pyRstripL

/-- The lines the loop buffers when no header is ever seen: leading blank
lines are skipped, everything from the first non-blank line on is kept. -/
def preHeaderCollected (s : String) : List (List Char) :=
  (mdLines s).dropWhile (fun l => (pyStripL l).isEmpty)

/-- No line of the input matches the header pattern. -/
def noHeaderLine (s : String) : Bool :=
  (mdLines s).all (fun l => (headerLineMatch l).isNone)

theorem parseLinesGo_buffered (ls : List (List Char))
    (hh : ∀ l ∈ ls, headerLineMatch (pyRstripL l) = none) :
    ∀ (buf : List (List Char)) (acc : List FlatSec), buf ≠ [] →
      parseLinesGo ls none buf acc =
        acc ++ [⟨"Content", 1, parseSectionContent (joinWithL ['\n'] (buf ++ ls.map pyRstripL))⟩] := by
  induction ls with
  | nil =>
    intro buf acc hbuf
    simp [parseLinesGo, hbuf]
  | cons l ls ih =>
    intro buf acc hbuf
    have h0 := hh l (by simp)
    simp only [parseLinesGo, h0]
    have hcond : (pyStripL (pyRstripL l) ≠ [] || buf ≠ []) = true := by
      simp [hbuf]
    rw [if_pos hcond]
    rw [ih (fun x hx => hh x (by simp [hx])) (buf ++ [pyRstripL l]) acc (by simp)]
    simp

theorem parseLinesGo_noheader (ls : List (List Char))
    (hh : ∀ l ∈ ls, headerLineMatch (pyRstripL l) = none) :
    ∀ (acc : List FlatSec),
      parseLinesGo ls none [] acc =
        (if (ls.map pyRstripL).dropWhile (fun l => (pyStripL l).isEmpty) = [] then acc
         else acc ++ [⟨"Content", 1, parseSectionContent (joinWithL ['\n']
           ((ls.map pyRstripL).dropWhile (fun l => (pyStripL l).isEmpty)))⟩]) := by
  induction ls with
  | nil => intro acc; simp [parseLinesGo]
  | cons l ls ih =>
    intro acc
    have h0 := hh l (by simp)
    simp only [parseLinesGo, h0]
    by_cases hb : pyStripL (pyRstripL l) = []
    · have hcond : (pyStripL (pyRstripL l) ≠ [] || ([] : List (List Char)) ≠ []) = false := by
        simp [hb]
      rw [if_neg (by simp [hb])]
      rw [ih (fun x hx => hh x (by simp [hx])) acc]
      simp [hb, List.dropWhile]
    · rw [if_pos (by simp [hb])]
      simp only [List.nil_append]
      rw [parseLinesGo_buffered ls (fun x hx => hh x (by simp [hx])) [pyRstripL l] acc (by simp)]
      have hbe : (pyStripL (pyRstripL l)).isEmpty = false := by
        cases hq : pyStripL (pyRstripL l) with
        | nil => exact absurd hq hb
        | cons a b => rfl
      simp [List.dropWhile, hbe]

theorem createHierarchy_single (f : FlatSec) :
    createHierarchy [f] = [Sec.mk f.title f.level f.content []] := rfl

theorem pyRstripL_eq_nil_iff (l : List Char) :
    pyRstripL l = [] ↔ ∀ c ∈ l, isPyWs c = true := by
  unfold pyRstripL
  rw [List.reverse_eq_nil_iff, List.dropWhile_eq_nil_iff]
  constructor
  · intro h c hc
    exact h c (by simpa using hc)
  · intro h c hc
    exact h c (by simpa using hc)

theorem mem_dropWhile_of_neg {α : Type} (p : α → Bool) (c : α) (l : List α)
    (hc : c ∈ l) (hpc : p c = false) : c ∈ l.dropWhile p := by
  have hsplit := List.takeWhile_append_dropWhile (p := p) (l := l)
  rcases List.mem_append.mp (hsplit ▸ hc) with h | h
  · have := List.mem_takeWhile_imp h
    rw [hpc] at this
    exact absurd this (by simp)
  · exact h

theorem mem_of_mem_dropWhile {α : Type} (p : α → Bool) (c : α) (l : List α)
    (hc : c ∈ l.dropWhile p) : c ∈ l :=
  (List.dropWhile_sublist p).mem hc

theorem pyStripL_eq_nil_iff (l : List Char) :
    pyStripL l = [] ↔ ∀ c ∈ l, isPyWs c = true := by
  unfold pyStripL
  rw [pyRstripL_eq_nil_iff]
  constructor
  · intro h c hc
    by_cases hw : isPyWs c = true
    · exact hw
    · exact absurd (h c (mem_dropWhile_of_neg isPyWs c l hc (by simpa using hw))) hw
  · intro h c hc
    exact h c (mem_of_mem_dropWhile isPyWs c l hc)

theorem mem_pyRstripL_of_mem (c : Char) (l : List Char)
    (hc : c ∈ l) (hw : isPyWs c = false) : c ∈ pyRstripL l := by
  unfold pyRstripL
  rw [List.mem_reverse]
  have hrev : c ∈ l.reverse := by simpa using hc
  rcases (List.takeWhile_append_dropWhile (p := isPyWs) (l := l.reverse)) ▸ hrev with h
  rcases List.mem_append.mp h with h | h
  · have := List.mem_takeWhile_imp h
    rw [hw] at this
    exact absurd this (by simp)
  · exact h

theorem mem_split_of_mem (sep c : Char) (l : List Char)
    (hc : c ∈ l) (hne : c ≠ sep) : ∃ p ∈ splitOnCharL sep l, c ∈ p := by
  induction l with
  | nil => simp at hc
  | cons x xs ih =>
    by_cases hx : x = sep
    · subst hx
      rcases List.mem_cons.mp hc with h | h
      · exact absurd h hne
      · obtain ⟨p, hp, hcp⟩ := ih h
        exact ⟨p, by simp [splitOnCharL, hp], hcp⟩
    · rcases List.mem_cons.mp hc with h | h
      · subst h
        cases hr : splitOnCharL sep xs with
        | nil => exact ⟨[c], by simp [splitOnCharL, hx, hr], by simp⟩
        | cons h0 t0 => exact ⟨c :: h0, by simp [splitOnCharL, hx, hr], by simp⟩
      · obtain ⟨p, hp, hcp⟩ := ih h
        cases hr : splitOnCharL sep xs with
        | nil => simp [hr] at hp
        | cons h0 t0 =>
          rw [hr] at hp
          rcases List.mem_cons.mp hp with hp | hp
          · subst hp
            exact ⟨x :: p, by simp [splitOnCharL, hx, hr], by simp [hcp]⟩
          · exact ⟨p, by simp [splitOnCharL, hx, hr, hp], hcp⟩

theorem preHeaderCollected_ne_nil (s : String) (h : pyStrip s ≠ "") :
    preHeaderCollected s ≠ [] := by
  have hl : pyStripL s.toList ≠ [] := by
    intro hc
    exact h (by unfold pyStrip; rw [hc])
  have : ¬ ∀ c ∈ s.toList, isPyWs c = true := fun hall => hl ((pyStripL_eq_nil_iff _).mpr hall)
  push_neg at this
  obtain ⟨c, hcmem, hcns⟩ := this
  have hcns' : isPyWs c = false := by simpa using hcns
  have hcnl : c ≠ '\n' := by
    intro hq
    subst hq
    simp [isPyWs] at hcns'
  obtain ⟨p, hp, hcp⟩ := mem_split_of_mem '\n' c s.toList hcmem hcnl
  unfold preHeaderCollected mdLines
  rw [Ne, List.dropWhile_eq_nil_iff]
  push_neg
  refine ⟨pyRstripL p, List.mem_map_of_mem _ hp, ?_⟩
  have hcr : c ∈ pyRstripL p := mem_pyRstripL_of_mem c p hcp hcns'
  intro hemp
  rw [List.isEmpty_iff] at hemp
  have := (pyStripL_eq_nil_iff _).mp hemp c hcr
  rw [hcns'] at this
  exact absurd this (by simp)

/-- C3 (amended): content preceding the first header becomes a synthetic
level-1 "Content" section only when the document contains no header line at
all; in that case the whole (right-stripped, leading-blank-skipped) input is
its content.  When a header line exists later, the buffered pre-header
content is discarded at the header (see the counterexample). -/
theorem c3_content_section_when_no_headers (s : String)
    (h1 : noHeaderLine s = true) (h2 : pyStrip s ≠ "") :
    (mdParse s).sections =
      [Sec.mk "Content" 1
        (parseSectionContent (joinWithL ['\n'] (preHeaderCollected s))) []] := by
  unfold mdParse
  rw [if_neg h2]
  have hh : ∀ l ∈ splitOnCharL '\n' s.toList, headerLineMatch (pyRstripL l) = none := by
    intro l hl
    have := List.all_eq_true.mp h1 (pyRstripL l)
      (by
        unfold mdLines
        exact List.mem_map_of_mem _ hl)
    simpa [Option.isNone_iff_eq_none] using this
  rw [parseLinesGo_noheader _ hh []]
  rw [if_neg (by
    have := preHeaderCollected_ne_nil s h2
    unfold preHeaderCollected mdLines at this
    exact this)]
  simp only [List.nil_append]
  exact createHierarchy_single _

/-- C3 witness: a concrete header-free input. -/
theorem c3_content_section_when_no_headers_witness :
    (mdParse "hello\nworld").sections =
      [Sec.mk "Content" 1
        (parseSectionContent (joinWithL ['\n'] (preHeaderCollected "hello\nworld"))) []] :=
  c3_content_section_when_no_headers "hello\nworld" (by decide) (by decide)

/-- C3 counterexample: for the input `"hello\n# T"`, which has non-whitespace
content before its first header, the parser yields only the `"T"` section —
the pre-header content is dropped and no "Content" section is created, so the
claim fails for documents that do contain a later header. -/
theorem c3_preheader_content_dropped :
    (mdParse "hello\n# T").sections = [Sec.mk "T" 1 emptyContent []] ∧
    "Content" ∉ (mdParse "hello\n# T").sections.map Sec.title := by
  constructor
  · rfl
  · decide

/-!
### C1: table row widths
-/

theorem string_mk_ne_empty (c : List Char) (h : c ≠ []) : String.mk c ≠ "" := by
  intro he
  apply h
  have : (String.mk c).data = ("" : String).data := by rw [he]
  simpa using this

theorem parseCellsFiltered_cells_ne_empty (line : List Char) :
    ∀ c ∈ parseCellsFiltered line, c ≠ "" := by
  intro c hc
  unfold parseCellsFiltered at hc
  obtain ⟨x, _, hx⟩ := List.mem_filterMap.mp hc
  by_cases hxe : x = []
  · simp [hxe] at hx
  · simp only [if_neg hxe] at hx
    rw [← Option.some.injEq] at hx
    have : c = String.mk x := by
      simpa using hx.symm
    subst this
    exact string_mk_ne_empty x hxe

/-- C1 (amended): rows are emitted with exactly the cells parsed from their
own source line, never padded or truncated to the header width: every table
produced by the GFM table extraction has `columns` equal to its header cell
count, a non-empty header, at least one row, and every row is a non-empty
list of non-empty cells — but a row's length is not forced to equal
`columns` (see the counterexample).  The CSV export writes each such row
verbatim, and the HTML converter emits one `<td>` per interior cell of the
row's own line: a 3-cell row under a 2-column header yields three `<td>`
elements and a 1-cell row yields one. -/
theorem c1_rows_keep_their_own_cells :
    (∀ (content : String) (t : MdTable), t ∈ extractTables content →
      t.columns = t.headers.length ∧ t.headers ≠ [] ∧ t.rows ≠ [] ∧
      ∀ r ∈ t.rows, r ≠ [] ∧ ∀ c ∈ r, c ≠ "") ∧
    countSub "<td>".toList
      (convertTableToHtml ["| A | B |", "|---|---|", "| 1 | 2 | 3 |"]).toList = 3 ∧
    countSub "<td>".toList
      (convertTableToHtml ["| A | B |", "|---|---|", "| 1 |"]).toList = 1 := by
  refine ⟨?_, by decide, by decide⟩
  intro content t ht
  unfold extractTables extractTablesL at ht
  obtain ⟨pr, _, hsome⟩ := List.mem_filterMap.mp ht
  unfold tableOfGroups at hsome
  set headers := parseCellsFiltered (pyStripL pr.1) with hH
  set rows := (splitOnCharL '\n' (pyStripL pr.2)).filterMap (fun line =>
    if pyStripL line ≠ [] && hasChar '|' line then
      let cells := parseCellsFiltered line
      if cells ≠ [] then some cells else none
    else none) with hR
  by_cases hcond : (headers ≠ [] && rows ≠ []) = true
  · rw [if_pos hcond] at hsome
    have ht' : t = ⟨headers, rows, headers.length⟩ := by
      simpa using hsome.symm
    subst ht'
    simp only [Bool.and_eq_true, ne_eq, decide_eq_true_eq] at hcond
    refine ⟨rfl, by simpa using hcond.1, by simpa using hcond.2, ?_⟩
    intro r hr
    simp only at hr
    rw [hR] at hr
    obtain ⟨line, _, hline⟩ := List.mem_filterMap.mp hr
    by_cases hc1 : (pyStripL line ≠ [] && hasChar '|' line) = true
    · rw [if_pos hc1] at hline
      simp only at hline
      by_cases hc2 : parseCellsFiltered line ≠ []
      · rw [if_pos (by simpa using hc2)] at hline
        have : r = parseCellsFiltered line := by simpa using hline.symm
        subst this
        exact ⟨hc2, parseCellsFiltered_cells_ne_empty line⟩
      · rw [if_neg (by simpa using hc2)] at hline
        simp at hline
    · rw [if_neg hc1] at hline
      simp at hline
  · rw [if_neg hcond] at hsome
    simp at hsome

/-- C1 witness: applying the row-shape theorem at a concrete table whose
single body row has three cells under a two-column header. -/
theorem c1_rows_keep_their_own_cells_witness :
    (⟨["A", "B"], [["1", "2", "3"]], 2⟩ : MdTable)
        ∈ extractTables "| A | B |\n|---|---|\n| 1 | 2 | 3 |\n" ∧
    (2 = (["A", "B"] : List String).length ∧ (["A", "B"] : List String) ≠ [] ∧
      ([["1", "2", "3"]] : List (List String)) ≠ [] ∧
      ∀ r ∈ ([["1", "2", "3"]] : List (List String)), r ≠ [] ∧ ∀ c ∈ r, c ≠ "") := by
  refine ⟨by decide, ?_⟩
  exact c1_rows_keep_their_own_cells.1 "| A | B |\n|---|---|\n| 1 | 2 | 3 |\n"
    ⟨["A", "B"], [["1", "2", "3"]], 2⟩ (by decide)

/-- C1 counterexample: a table whose header has two columns and whose body
row has three cells.  The parsed table keeps all three cells, the CSV export
emits the record `1,2,3` with three fields, and the HTML rendering emits
three `<td>` elements — the row is neither truncated to two cells nor are
short rows padded, refuting the claim as stated. -/
theorem c1_row_width_not_normalized :
    extractTables "| A | B |\n|---|---|\n| 1 | 2 | 3 |\n"
        = [⟨["A", "B"], [["1", "2", "3"]], 2⟩] ∧
    extractCsv "| A | B |\n|---|---|\n| 1 | 2 | 3 |\n" 0 = .ok "A,B\r\n1,2,3\r\n" ∧
    countSub "<td>".toList
      (convertTableToHtml ["| A | B |", "|---|---|", "| 1 | 2 | 3 |"]).toList = 3 ∧
    ¬ (∀ t ∈ extractTables "| A | B |\n|---|---|\n| 1 | 2 | 3 |\n",
        ∀ r ∈ t.rows, r.length = t.headers.length) := by
  refine ⟨by decide, by decide, by decide, by decide⟩

/-!
### C4: inline element precedence
-/

theorem hasChar_cons (c x : Char) (xs : List Char) :
    hasChar c (x :: xs) = (decide (x = c) || hasChar c xs) := by
  simp [hasChar]

theorem hasChar_tail (c x : Char) (xs : List Char) (h : hasChar c (x :: xs) = false) :
    hasChar c xs = false := by
  rw [hasChar_cons] at h
  exact (Bool.or_eq_false_iff.mp h).2

theorem head_ne_of_hasChar (c x : Char) (xs : List Char) (h : hasChar c (x :: xs) = false) :
    x ≠ c := by
  rw [hasChar_cons] at h
  have := (Bool.or_eq_false_iff.mp h).1
  simpa using this

theorem subDelimF_id (d0 : Char) (dr pre suf : List Char) :
    ∀ (fuel : Nat) (s : List Char), hasChar d0 s = false →
      subDelimF (d0 :: dr) pre suf fuel s = s := by
  intro fuel
  induction fuel with
  | zero => intro s _; rfl
  | succ n ih =>
    intro s h
    cases s with
    | nil => rfl
    | cons c cs =>
      have hne : c ≠ d0 := head_ne_of_hasChar d0 c cs h
      have hP : isPre (d0 :: dr) (c :: cs) = false := by
        simp only [isPre, Bool.and_eq_false_iff]
        left
        simpa using fun he => hne he.symm
      simp only [subDelimF, hP, Bool.false_eq_true, if_false]
      rw [ih cs (hasChar_tail d0 c cs h)]

theorem subCodeF_id (pre suf : List Char) :
    ∀ (fuel : Nat) (s : List Char), hasChar '\x60' s = false →
      subCodeF pre suf fuel s = s := by
  intro fuel
  induction fuel with
  | zero => intro s _; rfl
  | succ n ih =>
    intro s h
    cases s with
    | nil => rfl
    | cons c cs =>
      have hne : c ≠ '\x60' := head_ne_of_hasChar _ c cs h
      simp only [subCodeF, if_neg hne]
      rw [ih cs (hasChar_tail _ c cs h)]

theorem subLinkF_id :
    ∀ (fuel : Nat) (s : List Char), hasChar '[' s = false →
      subLinkF fuel s = s := by
  intro fuel
  induction fuel with
  | zero => intro s _; rfl
  | succ n ih =>
    intro s h
    cases s with
    | nil => rfl
    | cons c cs =>
      have hne : c ≠ '[' := head_ne_of_hasChar _ c cs h
      simp only [subLinkF, if_neg hne]
      rw [ih cs (hasChar_tail _ c cs h)]

theorem subImageF_id :
    ∀ (fuel : Nat) (s : List Char), hasChar '[' s = false →
      subImageF fuel s = s := by
  intro fuel
  induction fuel with
  | zero => intro s _; rfl
  | succ n ih =>
    intro s h
    cases s with
    | nil => rfl
    | cons c cs =>
      have htl := hasChar_tail '[' c cs h
      by_cases hc : c = '!'
      · subst hc
        cases cs with
        | nil => simp [subImageF, ih [] (by simp [hasChar])]
        | cons c2 cs2 =>
          have hne2 : c2 ≠ '[' := head_ne_of_hasChar _ c2 cs2 htl
          simp [subImageF, hne2, ih (c2 :: cs2) htl]
      · simp only [subImageF, if_neg hc]
        rw [ih cs htl]

theorem scanUntil_exact (stop : Char) (a rest : List Char) (h : hasChar stop a = false) :
    scanUntil stop (a ++ stop :: rest) = some (a, rest) := by
  induction a with
  | nil => simp [scanUntil]
  | cons x xs ih =>
    have hx : x ≠ stop := head_ne_of_hasChar stop x xs h
    simp only [List.cons_append, scanUntil, if_neg hx, List.append_eq]
    rw [ih (hasChar_tail stop x xs h)]

theorem subLinkF_nil (f : Nat) : subLinkF f [] = [] := by
  cases f <;> rfl

theorem subImageF_nil (f : Nat) : subImageF f [] = [] := by
  cases f <;> rfl

theorem subLinkF_cons_ne (f : Nat) (c : Char) (cs : List Char) (h : c ≠ '[') :
    subLinkF (f + 1) (c :: cs) = c :: subLinkF f cs := by
  simp [subLinkF, h]

theorem subImageF_cons_ne (f : Nat) (c : Char) (cs : List Char) (h : c ≠ '!') :
    subImageF (f + 1) (c :: cs) = c :: subImageF f cs := by
  simp [subImageF, h]

theorem subLinkF_link (f : Nat) (txt url rest : List Char)
    (h1 : txt ≠ []) (h2 : hasChar ']' txt = false)
    (h3 : url ≠ []) (h4 : hasChar ')' url = false) :
    subLinkF (f + 1) ('[' :: (txt ++ ']' :: '(' :: (url ++ ')' :: rest))) =
      "<a href=\"".toList ++ url ++ "\">".toList ++ txt ++ "</a>".toList
        ++ subLinkF f rest := by
  have hs1 := scanUntil_exact ']' txt ('(' :: (url ++ ')' :: rest)) h2
  have hs2 := scanUntil_exact ')' url rest h4
  simp [subLinkF, hs1, hs2, h1, h3]

theorem subLinkF_empty_bracket (f : Nat) (w : List Char) :
    subLinkF (f + 1) ('[' :: ']' :: w) = '[' :: subLinkF f (']' :: w) := by
  simp [subLinkF, scanUntil]

theorem subImageF_image (f : Nat) (alt url rest : List Char)
    (h2 : hasChar ']' alt = false) (h3 : url ≠ []) (h4 : hasChar ')' url = false) :
    subImageF (f + 1) ('!' :: '[' :: (alt ++ ']' :: '(' :: (url ++ ')' :: rest))) =
      "<img src=\"".toList ++ url ++ "\" alt=\"".toList ++ alt ++ "\">".toList
        ++ subImageF f rest := by
  have hs1 := scanUntil_exact ']' alt ('(' :: (url ++ ')' :: rest)) h2
  have hs2 := scanUntil_exact ')' url rest h4
  simp [subImageF, hs1, hs2, h3]

theorem any_eq_char_false_of_alnum (l : List Char) (hl : l.all Char.isAlphanum = true)
    (c : Char) (hc : c.isAlphanum = false) : (l.any fun x => x = c) = false := by
  rw [List.any_eq_false]
  intro x hx
  have hax := List.all_eq_true.mp hl x hx
  simp only [decide_eq_true_eq]
  intro he
  subst he
  rw [hax] at hc
  exact absurd hc (by simp)

theorem subDelim_id (d0 : Char) (dr pre suf s : List Char) (h : hasChar d0 s = false) :
    subDelim (d0 :: dr) pre suf s = s :=
  subDelimF_id d0 dr pre suf _ s h

theorem subCode_id (pre suf s : List Char) (h : hasChar '\x60' s = false) :
    subCode pre suf s = s :=
  subCodeF_id pre suf _ s h

theorem subLink_id (s : List Char) (h : hasChar '[' s = false) : subLink s = s :=
  subLinkF_id _ s h

theorem subImage_id (s : List Char) (h : hasChar '[' s = false) : subImage s = s :=
  subImageF_id _ s h

theorem subLinkF_bang_link (f : Nat) (txt url rest : List Char)
    (h1 : txt ≠ []) (h2 : hasChar ']' txt = false)
    (h3 : url ≠ []) (h4 : hasChar ')' url = false) :
    subLinkF (f + 2) ('!' :: '[' :: (txt ++ ']' :: '(' :: (url ++ ')' :: rest))) =
      '!' :: ("<a href=\"".toList ++ url ++ "\">".toList ++ txt ++ "</a>".toList
        ++ subLinkF f rest) := by
  rw [show f + 2 = (f + 1) + 1 from rfl]
  rw [subLinkF_cons_ne (f + 1) '!' _ (by decide)]
  rw [subLinkF_link f txt url rest h1 h2 h3 h4]

/-- With a non-empty alt text, the link pass (which runs before the image
pass) consumes the `[alt](url)` part of an image, leaving a bare `!` followed
by an anchor element. -/
theorem processInline_nonempty_alt (alt url : List Char)
    (halt : alt.all Char.isAlphanum = true) (hurl : url.all Char.isAlphanum = true)
    (haltne : alt ≠ []) (hurlne : url ≠ []) :
    processInlineElements ('!' :: '[' :: (alt ++ ']' :: '(' :: (url ++ [')']))) =
      '!' :: ("<a href=\"".toList ++ url ++ "\">".toList ++ alt ++ "</a>".toList) := by
  have hac := any_eq_char_false_of_alnum alt halt
  have huc := any_eq_char_false_of_alnum url hurl
  have hstar : hasChar '*' ('!' :: '[' :: (alt ++ ']' :: '(' :: (url ++ [')']))) = false := by
    simp [hasChar, hac '*' (by decide), huc '*' (by decide)]
  have htil : hasChar '~' ('!' :: '[' :: (alt ++ ']' :: '(' :: (url ++ [')']))) = false := by
    simp [hasChar, hac '~' (by decide), huc '~' (by decide)]
  have hbt : hasChar '\x60' ('!' :: '[' :: (alt ++ ']' :: '(' :: (url ++ [')']))) = false := by
    simp [hasChar, hac '\x60' (by decide), huc '\x60' (by decide)]
  unfold processInlineElements
  rw [subDelim_id '*' _ _ _ _ hstar, subDelim_id '*' _ _ _ _ hstar,
    subDelim_id '*' _ _ _ _ hstar, subDelim_id '~' _ _ _ _ htil,
    subCode_id _ _ _ hbt]
  have hLink : subLink ('!' :: '[' :: (alt ++ ']' :: '(' :: (url ++ [')']))) =
      '!' :: ("<a href=\"".toList ++ url ++ "\">".toList ++ alt ++ "</a>".toList) := by
    unfold subLink
    have hshape : ('!' :: '[' :: (alt ++ ']' :: '(' :: (url ++ [')']))).length + 1
        = (alt.length + url.length + 4) + 2 := by
      simp only [List.length_cons, List.length_append, List.length_nil]
      omega
    rw [hshape]
    rw [subLinkF_bang_link (alt.length + url.length + 4) alt url [] haltne
      (any_eq_char_false_of_alnum alt halt ']' (by decide)) hurlne
      (any_eq_char_false_of_alnum url hurl ')' (by decide))]
    simp [subLinkF_nil]
  rw [hLink]
  apply subImage_id
  simp [hasChar, hac '[' (by decide), huc '[' (by decide)]

/-- With an empty alt text the link pattern (whose bracket group is
non-empty) cannot match, so the image pass does produce an `<img>`. -/
theorem processInline_empty_alt (url : List Char)
    (hurl : url.all Char.isAlphanum = true) (hurlne : url ≠ []) :
    processInlineElements ('!' :: '[' :: ']' :: '(' :: (url ++ [')'])) =
      "<img src=\"".toList ++ url ++ "\" alt=\"".toList ++ "\">".toList := by
  have huc := any_eq_char_false_of_alnum url hurl
  have hstar : hasChar '*' ('!' :: '[' :: ']' :: '(' :: (url ++ [')'])) = false := by
    simp [hasChar, huc '*' (by decide)]
  have htil : hasChar '~' ('!' :: '[' :: ']' :: '(' :: (url ++ [')'])) = false := by
    simp [hasChar, huc '~' (by decide)]
  have hbt : hasChar '\x60' ('!' :: '[' :: ']' :: '(' :: (url ++ [')'])) = false := by
    simp [hasChar, huc '\x60' (by decide)]
  unfold processInlineElements
  rw [subDelim_id '*' _ _ _ _ hstar, subDelim_id '*' _ _ _ _ hstar,
    subDelim_id '*' _ _ _ _ hstar, subDelim_id '~' _ _ _ _ htil,
    subCode_id _ _ _ hbt]
  have hnob : hasChar '[' (']' :: '(' :: (url ++ [')'])) = false := by
    simp [hasChar, huc '[' (by decide)]
  have hLink : subLink ('!' :: '[' :: ']' :: '(' :: (url ++ [')'])) =
      '!' :: '[' :: ']' :: '(' :: (url ++ [')']) := by
    unfold subLink
    have hshape : ('!' :: '[' :: ']' :: '(' :: (url ++ [')'])).length + 1
        = ((url.length + 4) + 1) + 1 := by
      simp only [List.length_cons, List.length_append, List.length_nil]
    rw [hshape]
    rw [subLinkF_cons_ne ((url.length + 4) + 1) '!' _ (by decide)]
    rw [subLinkF_empty_bracket (url.length + 4) _]
    rw [subLinkF_id (url.length + 4) _ hnob]
  rw [hLink]
  unfold subImage
  have himg := subImageF_image ('!' :: '[' :: ']' :: '(' :: (url ++ [')'])).length
    [] url [] (by simp [hasChar]) hurlne
    (any_eq_char_false_of_alnum url hurl ')' (by decide))
  simp only [List.nil_append] at himg
  rw [himg]
  simp [subImageF_nil]

/-- C4 (amended): the HTML renderer processes inline elements in the fixed
order bold-italic, bold, italic, strikethrough, inline code, links, then
images (this is the order the substitutions are applied in
`_process_inline_elements`).  Because the link pass runs before the image
pass, image syntax `![alt](url)` with a non-empty alt is consumed by the link
rule and emitted as `!` followed by an anchor element — it does not produce
an `<img>`.  Only an image with empty alt text (which the link pattern,
requiring a non-empty bracket group, cannot match) produces an `<img>`
element. -/
theorem c4_link_rule_consumes_nonempty_alt_images (alt url : List Char)
    (halt : alt.all Char.isAlphanum = true) (hurl : url.all Char.isAlphanum = true)
    (hurlne : url ≠ []) :
    (alt ≠ [] →
      processInlineElements ('!' :: '[' :: (alt ++ ']' :: '(' :: (url ++ [')']))) =
        '!' :: ("<a href=\"".toList ++ url ++ "\">".toList ++ alt ++ "</a>".toList)) ∧
    processInlineElements ('!' :: '[' :: ']' :: '(' :: (url ++ [')'])) =
      "<img src=\"".toList ++ url ++ "\" alt=\"".toList ++ "\">".toList := by
  constructor
  · intro haltne
    exact processInline_nonempty_alt alt url halt hurl haltne hurlne
  · exact processInline_empty_alt url hurl hurlne

/-- C4 witness: the theorem applied at `alt = "a"`, `url = "u"`. -/
theorem c4_link_rule_consumes_nonempty_alt_images_witness :
    processInlineElements ('!' :: '[' :: ("a".toList ++ ']' :: '(' :: ("u".toList ++ [')']))) =
      '!' :: ("<a href=\"".toList ++ "u".toList ++ "\">".toList ++ "a".toList ++ "</a>".toList) ∧
    processInlineElements ('!' :: '[' :: ']' :: '(' :: ("u".toList ++ [')'])) =
      "<img src=\"".toList ++ "u".toList ++ "\" alt=\"".toList ++ "\">".toList := by
  have h := c4_link_rule_consumes_nonempty_alt_images "a".toList "u".toList
    (by decide) (by decide) (by decide)
  exact ⟨h.1 (by decide), h.2⟩

/-- C4 counterexample: for the input `![a](u)` (image syntax with non-empty
alt), the rendered output is `!<a href="u">a</a>`: no `<img>` element is
produced, because the link rule — which runs before the image rule — already
consumed the `[a](u)` part.  This refutes the claimed consequence that the
ordering preserves every image with non-empty alt as an `<img>`. -/
theorem c4_nonempty_alt_image_not_rendered :
    String.mk (processInlineElements "![a](u)".toList) = "!<a href=\"u\">a</a>" ∧
    containsSub "<img".toList (processInlineElements "![a](u)".toList) = false := by
  exact ⟨by decide, by decide⟩

/-!
### C6: strip algebra and character-absence lemmas
-/

/-- The character set of the plain-text preservation statement: letters,
digits and spaces, i.e. text that contains none of the markers any of the
parsing passes react to. -/
def plainChar (c : Char) : Bool :=
  c.isAlphanum || c = ' '

theorem any_eq_char_false_of_all (p : Char → Bool) (l : List Char)
    (hl : l.all p = true) (c : Char) (hc : p c = false) :
    (l.any fun x => x = c) = false := by
  rw [List.any_eq_false]
  intro x hx
  have hax := List.all_eq_true.mp hl x hx
  simp only [decide_eq_true_eq]
  intro he
  subst he
  rw [hax] at hc
  exact absurd hc (by simp)

theorem hasChar_false_of_all (p : Char → Bool) (l : List Char)
    (hl : l.all p = true) (c : Char) (hc : p c = false) : hasChar c l = false :=
  any_eq_char_false_of_all p l hl c hc

theorem ne_of_all (p : Char → Bool) (l : List Char) (hl : l.all p = true)
    (c : Char) (hc : p c = false) : ∀ x ∈ l, x ≠ c := by
  intro x hx he
  subst he
  rw [List.all_eq_true.mp hl x hx] at hc
  exact absurd hc (by simp)

theorem hasChar_drop_false (c : Char) (l : List Char) (n : Nat)
    (h : hasChar c l = false) : hasChar c (l.drop n) = false := by
  rw [hasChar, List.any_eq_false]
  intro x hx
  have hm : x ∈ l := List.mem_of_mem_drop hx
  rw [hasChar, List.any_eq_false] at h
  exact h x hm

theorem hasChar_false_iff (c : Char) (l : List Char) :
    hasChar c l = false ↔ ∀ x ∈ l, x ≠ c := by
  rw [hasChar, List.any_eq_false]
  simp

theorem mem_of_mem_pyRstripL (c : Char) (l : List Char) (h : c ∈ pyRstripL l) : c ∈ l := by
  unfold pyRstripL at h
  rw [List.mem_reverse] at h
  have := (List.dropWhile_suffix (l := l.reverse) isPyWs).sublist.mem h
  simpa using this

theorem mem_of_mem_pyStripL (c : Char) (l : List Char) (h : c ∈ pyStripL l) : c ∈ l := by
  unfold pyStripL at h
  have h1 := mem_of_mem_pyRstripL c _ h
  exact (List.dropWhile_suffix (l := l) isPyWs).sublist.mem h1

theorem all_pyRstripL (p : Char → Bool) (l : List Char) (hl : l.all p = true) :
    (pyRstripL l).all p = true := by
  rw [List.all_eq_true]
  intro x hx
  exact List.all_eq_true.mp hl x (mem_of_mem_pyRstripL x l hx)

theorem all_pyStripL (p : Char → Bool) (l : List Char) (hl : l.all p = true) :
    (pyStripL l).all p = true := by
  rw [List.all_eq_true]
  intro x hx
  exact List.all_eq_true.mp hl x (mem_of_mem_pyStripL x l hx)

theorem dropWhile_idem (p : Char → Bool) (l : List Char) :
    (l.dropWhile p).dropWhile p = l.dropWhile p := by
  induction l with
  | nil => rfl
  | cons x xs ih =>
    by_cases h : p x = true
    · simp [List.dropWhile_cons, h, ih]
    · simp [List.dropWhile_cons, h]

theorem pyRstripL_cons (x : Char) (xs : List Char) :
    pyRstripL (x :: xs) =
      (if pyRstripL xs = [] then (if isPyWs x then [] else [x]) else x :: pyRstripL xs) := by
  unfold pyRstripL
  rw [List.reverse_cons, List.dropWhile_append]
  by_cases h : (List.dropWhile isPyWs xs.reverse).isEmpty = true
  · rw [if_pos h]
    rw [List.isEmpty_iff] at h
    rw [if_pos (by rw [h]; rfl)]
    by_cases hx : isPyWs x = true
    · simp [List.dropWhile_cons, hx]
    · simp [List.dropWhile_cons, hx]
  · rw [if_neg h]
    have hne : (List.dropWhile isPyWs xs.reverse) ≠ [] := by
      intro hq
      exact h (by rw [hq]; rfl)
    rw [if_neg (by
      intro hq
      exact hne (by
        have : (List.dropWhile isPyWs xs.reverse).reverse.reverse = ([] : List Char).reverse := by
          rw [hq]
        simpa using this))]
    simp

theorem pyRstripL_idem (l : List Char) : pyRstripL (pyRstripL l) = pyRstripL l := by
  unfold pyRstripL
  rw [List.reverse_reverse, dropWhile_idem]

theorem dropWhile_pyRstripL_comm (l : List Char) :
    (pyRstripL l).dropWhile isPyWs = pyRstripL (l.dropWhile isPyWs) := by
  induction l with
  | nil => rfl
  | cons x xs ih =>
    by_cases hx : isPyWs x = true
    · rw [pyRstripL_cons]
      by_cases hr : pyRstripL xs = []
      · rw [if_pos hr, if_pos hx]
        have hall : ∀ c ∈ xs, isPyWs c = true := (pyRstripL_eq_nil_iff xs).mp hr
        have hdw : xs.dropWhile isPyWs = [] := List.dropWhile_eq_nil_iff.mpr hall
        rw [List.dropWhile_cons, if_pos hx, hdw]
        rfl
      · rw [if_neg hr]
        rw [List.dropWhile_cons, if_pos hx]
        rw [List.dropWhile_cons, if_pos hx]
        exact ih
    · rw [pyRstripL_cons]
      by_cases hr : pyRstripL xs = []
      · rw [if_pos hr, if_neg hx]
        rw [List.dropWhile_cons, if_neg hx]
        rw [List.dropWhile_cons, if_neg hx]
        rw [pyRstripL_cons, if_pos hr, if_neg hx]
      · rw [if_neg hr]
        rw [List.dropWhile_cons, if_neg hx]
        rw [List.dropWhile_cons, if_neg hx]
        rw [pyRstripL_cons, if_neg hr]

theorem pyStripL_pyRstripL (l : List Char) : pyStripL (pyRstripL l) = pyStripL l := by
  unfold pyStripL
  rw [dropWhile_pyRstripL_comm, pyRstripL_idem]

theorem pyStripL_idem (l : List Char) : pyStripL (pyStripL l) = pyStripL l := by
  show pyStripL (pyRstripL (l.dropWhile isPyWs)) = pyStripL l
  rw [pyStripL_pyRstripL]
  show pyRstripL ((l.dropWhile isPyWs).dropWhile isPyWs) = pyStripL l
  rw [dropWhile_idem]
  rfl

/-!
### C6: each extraction pass ignores text without its trigger characters
-/

theorem splitOnCharL_no_sep (sep : Char) (l : List Char) (h : hasChar sep l = false) :
    splitOnCharL sep l = [l] := by
  induction l with
  | nil => rfl
  | cons x xs ih =>
    have hx : x ≠ sep := head_ne_of_hasChar sep x xs h
    simp [splitOnCharL, hx, ih (hasChar_tail sep x xs h)]

theorem splitOnSubF_no_head (c0 : Char) (pr : List Char) :
    ∀ (f : Nat) (s : List Char), hasChar c0 s = false →
      splitOnSubF (c0 :: pr) f s = [s] := by
  intro f
  induction f with
  | zero => intro s _; rfl
  | succ n ih =>
    intro s h
    cases s with
    | nil => rfl
    | cons c cs =>
      have hx : c ≠ c0 := head_ne_of_hasChar c0 c cs h
      have hP : isPre (c0 :: pr) (c :: cs) = false := by
        simp only [isPre, Bool.and_eq_false_iff]
        left
        simpa using fun he => hx he.symm
      simp [splitOnSubF, hP, ih cs (hasChar_tail c0 c cs h)]

theorem headerLineMatch_none (l : List Char) (h : hasChar '#' l = false) :
    headerLineMatch l = none := by
  cases l with
  | nil => rfl
  | cons x xs =>
    have hx : x ≠ '#' := head_ne_of_hasChar '#' x xs h
    simp [headerLineMatch, List.takeWhile_cons, hx]

theorem codeBlockMatchAt_none (s : List Char) (h : hasChar '\x60' s = false) :
    codeBlockMatchAt s = none := by
  cases s with
  | nil => rfl
  | cons c cs =>
    have hx : c ≠ '\x60' := head_ne_of_hasChar _ c cs h
    have hP : isPre fence (c :: cs) = false := by
      simp only [fence, isPre, Bool.and_eq_false_iff]
      left
      simpa using fun he => hx he.symm
    simp [codeBlockMatchAt, hP]

theorem subCodeBlocksF_id :
    ∀ (f : Nat) (s : List Char), hasChar '\x60' s = false → subCodeBlocksF f s = s := by
  intro f
  induction f with
  | zero => intro s _; rfl
  | succ n ih =>
    intro s h
    cases s with
    | nil => rfl
    | cons c cs =>
      simp only [subCodeBlocksF, codeBlockMatchAt_none _ h]
      rw [ih cs (hasChar_tail _ c cs h)]

theorem codeBlocksFindF_nil :
    ∀ (f : Nat) (s : List Char), hasChar '\x60' s = false → codeBlocksFindF f s = [] := by
  intro f
  induction f with
  | zero => intro s _; rfl
  | succ n ih =>
    intro s h
    cases s with
    | nil => rfl
    | cons c cs =>
      simp only [codeBlocksFindF, codeBlockMatchAt_none _ h]
      exact ih cs (hasChar_tail _ c cs h)

theorem subPipeF_id :
    ∀ (f : Nat) (s : List Char), hasChar '|' s = false → subPipeF f s = s := by
  intro f
  induction f with
  | zero => intro s _; rfl
  | succ n ih =>
    intro s h
    cases s with
    | nil => rfl
    | cons c cs =>
      have hx : c ≠ '|' := head_ne_of_hasChar _ c cs h
      simp only [subPipeF, if_neg hx]
      rw [ih cs (hasChar_tail _ c cs h)]

theorem attemptUnorderedLine_none (s : List Char)
    (h1 : hasChar '*' s = false) (h2 : hasChar '-' s = false) (h3 : hasChar '+' s = false) :
    attemptUnorderedLine s = none := by
  unfold attemptUnorderedLine
  dsimp only
  cases hd : s.drop (s.takeWhile isPyWs).length with
  | nil => rfl
  | cons m r2 =>
    have hm : m ∈ s := List.mem_of_mem_drop (by rw [hd]; exact List.mem_cons_self m r2)
    have e1 := (hasChar_false_iff '*' s).mp h1 m hm
    have e2 := (hasChar_false_iff '-' s).mp h2 m hm
    have e3 := (hasChar_false_iff '+' s).mp h3 m hm
    simp [e1, e2, e3]

theorem attemptOrderedLine_none (s : List Char) (h : hasChar '.' s = false) :
    attemptOrderedLine s = none := by
  unfold attemptOrderedLine
  dsimp only
  by_cases hd : (s.drop (s.takeWhile isPyWs).length).takeWhile Char.isDigit = []
  · simp [hd]
  · rw [if_neg hd]
    cases hq : (s.drop (s.takeWhile isPyWs).length).drop
        ((s.drop (s.takeWhile isPyWs).length).takeWhile Char.isDigit).length with
    | nil => rfl
    | cons c0 r2 =>
      have hm : c0 ∈ s := by
        have h1 : c0 ∈ (s.drop (s.takeWhile isPyWs).length).drop
            ((s.drop (s.takeWhile isPyWs).length).takeWhile Char.isDigit).length := by
          rw [hq]
          exact List.mem_cons_self c0 r2
        exact List.mem_of_mem_drop (List.mem_of_mem_drop h1)
      have e := (hasChar_false_iff '.' s).mp h c0 hm
      simp [e]

theorem attemptBQ_none (s : List Char) (h : hasChar '>' s = false) :
    attemptBQ s = none := by
  cases s with
  | nil => rfl
  | cons c cs =>
    have hx : c ≠ '>' := head_ne_of_hasChar _ c cs h
    simp [attemptBQ, hx]

theorem subMLF_id_of_none (att : List Char → Option (List Char)) :
    ∀ (f : Nat) (b : Bool) (s : List Char), (∀ n, att (s.drop n) = none) →
      subMLF att f b s = s := by
  intro f
  induction f with
  | zero => intro b s _; rfl
  | succ n ih =>
    intro b s hn
    cases s with
    | nil => rfl
    | cons c cs =>
      have h0 : att (c :: cs) = none := hn 0
      have hn2 : ∀ m, att (cs.drop m) = none := fun m => hn (m + 1)
      cases b with
      | true =>
        simp only [subMLF, h0]
        rw [ih (c = '\n') cs hn2]
        simp
      | false =>
        simp only [subMLF]
        rw [ih (c = '\n') cs hn2]
        simp

theorem bqFindF_nil_of_none :
    ∀ (f : Nat) (b : Bool) (s : List Char), (∀ n, attemptBQ (s.drop n) = none) →
      bqFindF f b s = [] := by
  intro f
  induction f with
  | zero => intro b s _; rfl
  | succ n ih =>
    intro b s hn
    cases s with
    | nil => rfl
    | cons c cs =>
      have h0 : attemptBQ (c :: cs) = none := hn 0
      have hn2 : ∀ m, attemptBQ (cs.drop m) = none := fun m => hn (m + 1)
      cases b with
      | true =>
        simp only [bqFindF, h0]
        rw [ih (c = '\n') cs hn2]
        simp
      | false =>
        simp only [bqFindF]
        rw [ih (c = '\n') cs hn2]
        simp

theorem tableMatchAt_none (s : List Char) (h : hasChar '|' s = false) :
    tableMatchAt s = none := by
  cases s with
  | nil => rfl
  | cons c0 t =>
    have hx : c0 ≠ '|' := head_ne_of_hasChar _ c0 t h
    simp [tableMatchAt, hx]

theorem tableFindF_nil :
    ∀ (f : Nat) (s : List Char), hasChar '|' s = false → tableFindF f s = [] := by
  intro f
  induction f with
  | zero => intro s _; rfl
  | succ n ih =>
    intro s h
    cases s with
    | nil => rfl
    | cons c cs =>
      simp only [tableFindF, tableMatchAt_none _ h]
      exact ih cs (hasChar_tail _ c cs h)

theorem imageFindF_nil :
    ∀ (f : Nat) (s : List Char), hasChar '!' s = false → imageFindF f s = [] := by
  intro f
  induction f with
  | zero => intro s _; rfl
  | succ n ih =>
    intro s h
    cases s with
    | nil => rfl
    | cons c cs =>
      have hx : c ≠ '!' := head_ne_of_hasChar _ c cs h
      simp only [imageFindF, if_neg hx]
      exact ih cs (hasChar_tail _ c cs h)

theorem linkFindF_nil :
    ∀ (f : Nat) (s : List Char), hasChar '[' s = false → linkFindF f s = [] := by
  intro f
  induction f with
  | zero => intro s _; rfl
  | succ n ih =>
    intro s h
    cases s with
    | nil => rfl
    | cons c cs =>
      have hx : c ≠ '[' := head_ne_of_hasChar _ c cs h
      simp only [linkFindF, if_neg hx]
      exact ih cs (hasChar_tail _ c cs h)

theorem unorderedItemMatch_none (line : List Char)
    (h1 : hasChar '*' line = false) (h2 : hasChar '-' line = false)
    (h3 : hasChar '+' line = false) :
    unorderedItemMatch line = none := by
  unfold unorderedItemMatch
  dsimp only
  cases hd : line.drop (line.takeWhile isPyWs).length with
  | nil => rfl
  | cons m r2 =>
    have hm : m ∈ line := List.mem_of_mem_drop (by rw [hd]; exact List.mem_cons_self m r2)
    have e1 := (hasChar_false_iff '*' line).mp h1 m hm
    have e2 := (hasChar_false_iff '-' line).mp h2 m hm
    have e3 := (hasChar_false_iff '+' line).mp h3 m hm
    simp [e1, e2, e3]

theorem orderedItemMatch_none (line : List Char) (h : hasChar '.' line = false) :
    orderedItemMatch line = none := by
  unfold orderedItemMatch
  dsimp only
  by_cases hd : (line.drop (line.takeWhile isPyWs).length).takeWhile Char.isDigit = []
  · simp [hd]
  · rw [if_neg hd]
    cases hq : (line.drop (line.takeWhile isPyWs).length).drop
        ((line.drop (line.takeWhile isPyWs).length).takeWhile Char.isDigit).length with
    | nil => rfl
    | cons c0 r2 =>
      have hm : c0 ∈ line := by
        have h1 : c0 ∈ (line.drop (line.takeWhile isPyWs).length).drop
            ((line.drop (line.takeWhile isPyWs).length).takeWhile Char.isDigit).length := by
          rw [hq]
          exact List.mem_cons_self c0 r2
        exact List.mem_of_mem_drop (List.mem_of_mem_drop h1)
      have e := (hasChar_false_iff '.' line).mp h c0 hm
      simp [e]

theorem cleanInlineFormatting_plain (x : List Char) (hall : x.all plainChar = true) :
    cleanInlineFormatting x = pyStripL x := by
  have hc : ∀ c, plainChar c = false → hasChar c x = false :=
    fun c h => hasChar_false_of_all plainChar x hall c h
  unfold cleanInlineFormatting
  rw [subDelim_id '*' _ _ _ _ (hc '*' (by decide)),
    subDelim_id '*' _ _ _ _ (hc '*' (by decide)),
    subCode_id _ _ _ (hc '\x60' (by decide))]

theorem extractParagraphs_plain (line : List Char)
    (hall : line.all plainChar = true) (hne : pyStripL line ≠ []) :
    extractParagraphs line = [String.mk (pyStripL line)] := by
  have hc : ∀ c, plainChar c = false → hasChar c line = false :=
    fun c h => hasChar_false_of_all plainChar line hall c h
  unfold extractParagraphs
  dsimp only
  rw [show subCodeBlocks line = line from subCodeBlocksF_id _ line (hc '\x60' (by decide))]
  rw [show subPipe line = line from subPipeF_id _ line (hc '|' (by decide))]
  rw [show subML attemptUnorderedLine line = line from
    subMLF_id_of_none _ _ _ line (fun n => attemptUnorderedLine_none _
      (hasChar_drop_false _ _ _ (hc '*' (by decide)))
      (hasChar_drop_false _ _ _ (hc '-' (by decide)))
      (hasChar_drop_false _ _ _ (hc '+' (by decide))))]
  rw [show subML attemptOrderedLine line = line from
    subMLF_id_of_none _ _ _ line (fun n => attemptOrderedLine_none _
      (hasChar_drop_false _ _ _ (hc '.' (by decide))))]
  rw [show subML (fun s => (attemptBQ s).map (·.2)) line = line from
    subMLF_id_of_none _ _ _ line (fun n => by
      rw [attemptBQ_none _ (hasChar_drop_false _ _ _ (hc '>' (by decide)))]
      rfl)]
  rw [show ("\n\n".toList : List Char) = '\n' :: ['\n'] from by decide]
  rw [show splitOnSub ('\n' :: ['\n']) line = [line] from
    splitOnSubF_no_head '\n' ['\n'] _ line (hc '\n' (by decide))]
  simp only [List.map_cons, List.map_nil, List.filterMap]
  cases hsp : pyStripL line with
  | nil => exact absurd hsp hne
  | cons c0 r0 =>
    have hc0 : c0 ∈ line := mem_of_mem_pyStripL c0 line (by rw [hsp]; exact List.mem_cons_self c0 r0)
    have hplain0 := List.all_eq_true.mp hall c0 hc0
    have hne0 : c0 ≠ '#' := by
      intro he
      subst he
      exact absurd hplain0 (by decide)
    simp only [if_neg hne0]
    have hclean : cleanInlineFormatting (c0 :: r0) = pyStripL line := by
      rw [← hsp, cleanInlineFormatting_plain _ (all_pyStripL plainChar line hall),
        pyStripL_idem]
    simp [hclean, hsp]

theorem parseSectionContent_plain (line : List Char)
    (hall : line.all plainChar = true) (hne : pyStripL line ≠ []) :
    parseSectionContent line =
      { paragraphs := [String.mk (pyStripL line)], lists := [], codeBlocks := [],
        tables := [], images := [], links := [], blockquotes := [] } := by
  have hc : ∀ c, plainChar c = false → hasChar c line = false :=
    fun c h => hasChar_false_of_all plainChar line hall c h
  unfold parseSectionContent
  rw [if_neg hne]
  have hpar := extractParagraphs_plain line hall hne
  have hlists : extractLists line = [] := by
    unfold extractLists
    rw [splitOnCharL_no_sep '\n' line (hc '\n' (by decide))]
    have hrall : (pyRstripL line).all plainChar = true := all_pyRstripL plainChar line hall
    have hrc : ∀ c, plainChar c = false → hasChar c (pyRstripL line) = false :=
      fun c h => hasChar_false_of_all plainChar _ hrall c h
    simp only [extractListsGo,
      unorderedItemMatch_none _ (hrc '*' (by decide)) (hrc '-' (by decide)) (hrc '+' (by decide)),
      orderedItemMatch_none _ (hrc '.' (by decide))]
    split <;> rfl
  have hcode : extractCodeBlocks line = [] := codeBlocksFindF_nil _ line (hc '\x60' (by decide))
  have htab : extractTablesL line = [] := by
    unfold extractTablesL
    rw [tableFindF_nil _ line (hc '|' (by decide))]
    rfl
  have himg : extractImages line = [] := by
    unfold extractImages
    rw [imageFindF_nil _ line (hc '!' (by decide))]
    rfl
  have hlink : extractLinks line = [] := by
    unfold extractLinks
    rw [linkFindF_nil _ line (hc '[' (by decide))]
    rfl
  have hbq : extractBlockquotes line = [] := by
    unfold extractBlockquotes bqFind
    rw [bqFindF_nil_of_none _ _ line (fun n => attemptBQ_none _
      (hasChar_drop_false _ _ _ (hc '>' (by decide))))]
    rfl
  rw [hpar, hlists, hcode, htab, himg, hlink, hbq]

/-- C6 (amended): markdown parsing is a total function that returns a
document for every input, and plain text containing none of the recognized
markers is preserved as ordinary paragraph text: a non-blank single-line
input of letters, digits and spaces parses to a single "Content" section
whose only content is that text (stripped) as one paragraph.  Preservation
is not unconditional, though: pipe-containing lines that do not form a valid
table (and content preceding the first header) are silently dropped — see
the counterexample. -/
theorem c6_plain_line_preserved_as_paragraph (s : String)
    (h1 : s.toList.all plainChar = true) (h2 : pyStrip s ≠ "") :
    (mdParse s).sections =
      [Sec.mk "Content" 1
        { paragraphs := [pyStrip s], lists := [], codeBlocks := [], tables := [],
          images := [], links := [], blockquotes := [] } []] := by
  have hc : ∀ c, plainChar c = false → hasChar c s.toList = false :=
    fun c h => hasChar_false_of_all plainChar _ h1 c h
  have hL : pyStripL s.toList ≠ [] := by
    intro hq
    exact h2 (by unfold pyStrip; rw [hq])
  have hrall := all_pyRstripL plainChar s.toList h1
  have hrc : ∀ c, plainChar c = false → hasChar c (pyRstripL s.toList) = false :=
    fun c h => hasChar_false_of_all plainChar _ hrall c h
  have hhd : headerLineMatch (pyRstripL s.toList) = none :=
    headerLineMatch_none _ (hrc '#' (by decide))
  have hstrip : pyStripL (pyRstripL s.toList) = pyStripL s.toList := pyStripL_pyRstripL _
  have hrne : pyStripL (pyRstripL s.toList) ≠ [] := by rw [hstrip]; exact hL
  unfold mdParse
  rw [if_neg h2]
  dsimp only
  rw [splitOnCharL_no_sep '\n' s.toList (hc '\n' (by decide))]
  rw [parseLinesGo_noheader [s.toList]
    (by
      intro l hl
      have : l = s.toList := by simpa using hl
      subst this
      exact hhd) []]
  have hbe : (pyStripL (pyRstripL s.toList)).isEmpty = false := by
    cases hq : pyStripL (pyRstripL s.toList) with
    | nil => exact absurd hq hrne
    | cons a b => rfl
  simp only [List.map_cons, List.map_nil, List.dropWhile, hbe]
  rw [if_neg (by simp)]
  simp only [List.nil_append]
  rw [createHierarchy_single]
  have hcontent := parseSectionContent_plain (pyRstripL s.toList) hrall hrne
  show [Sec.mk "Content" 1 (parseSectionContent (joinWithL ['\n'] [pyRstripL s.toList])) []] = _
  rw [show joinWithL ['\n'] [pyRstripL s.toList] = pyRstripL s.toList from rfl]
  rw [hcontent, hstrip]
  rfl

/-- C6 witness: the concrete plain input `"hello world"`. -/
theorem c6_plain_line_preserved_as_paragraph_witness :
    (mdParse "hello world").sections =
      [Sec.mk "Content" 1
        { paragraphs := [pyStrip "hello world"], lists := [], codeBlocks := [],
          tables := [], images := [], links := [], blockquotes := [] } []] :=
  c6_plain_line_preserved_as_paragraph "hello world" (by decide) (by decide)

/-- C6 counterexample: parsing never fails, but input text can be silently
dropped.  For `"# T\n| a |"` the line `| a |` is not a valid table (there is
no separator row), it is stripped from the paragraph text by the
pipe-removal substitution, and no other extractor keeps it: the resulting
document has a single section `T` with empty content — the text `a` appears
nowhere in the result, refuting the claim that unrecognized syntax is
preserved as ordinary paragraph text. -/
theorem c6_pipe_line_silently_dropped :
    (mdParse "# T\n| a |").sections = [Sec.mk "T" 1 emptyContent []] ∧
    emptyContent.paragraphs = [] ∧ emptyContent.tables = [] := by
  exact ⟨rfl, rfl, rfl⟩

end Docstrange
